import Mathlib

/-!
Verification of the tree activation/ownership propagation algorithm of
`todoist-periodic-task-updater`.  The two engine iterations
(`todoist-periodic-task-updater.py`, called "v1" below, and
`todoist-periodic-task-updater-v2.py`, called "v2" below) are shallowly
embedded: task nodes become a flat list of records addressed by position
(matching the flat, `child_order`-sorted Python item list), staged store
mutations become an explicit queue of commands, and Python exceptions become
`Except` results.  Strings are modelled as `List Char` with the handful of
Python string operations the source uses defined explicitly.
-/

namespace TodoistUpdater

/-! ## Python string operations on `List Char` -/

/-- The characters stripped by Python's `str.strip()` with no argument. -/
def pyspace (c : Char) : Bool :=
  c = ' ' || c = '\t' || c = '\n' || c = '\r' || c = Char.ofNat 11 || c = Char.ofNat 12

/-- Python `str.strip()`: remove whitespace from both ends. -/
def pystrip (s : List Char) : List Char :=
  ((s.dropWhile pyspace).reverse.dropWhile pyspace).reverse

/-- Python `str.endswith(suffix)`. -/
def endswith (s suf : List Char) : Bool :=
  suf.isSuffixOf s

/-- Python `str.startswith(p)`. -/
def startswith (s p : List Char) : Bool :=
  p.isPrefixOf s

/-- Python `str[0:-(len(suf))]`, as used by `has_suffix` to strip a suffix.
For an empty `suf` Python's `str[0:-0]` is `str[0:0] = ''`. -/
def dropsuffix (s suf : List Char) : List Char :=
  if suf.isEmpty then [] else s.take (s.length - suf.length)

/-! ## The processing-mode enumerations of the first-iteration engine (v1)

`process_item` receives `processing_mode` ∈ {'serial', 'parallel',
'inactive', None}; `parse_item_metadata` produces a modifier kind
(`metadata.type`) ∈ {'serial', 'parallel', None}; the computed
`tree_prcessing_mode` (sic) and `item_processing_mode` range over
{'activate', 'take', None}. -/

inductive PMode where
  | serial
  | parallel
  | inactive
deriving DecidableEq, Repr

inductive MType where
  | serial
  | parallel
deriving DecidableEq, Repr

inductive Verdict where
  | activate
  | take
deriving DecidableEq, Repr

/-- v1 `process_item`, lines 311–320: the tree-level verdict.

    tree_prcessing_mode = (
        'activate'
            if ((processing_mode == 'serial' and is_first)
                or processing_mode == 'parallel'
                or is_active_recurring)
        else 'take'
            if (processing_mode == 'serial'
                or processing_mode == 'inactive'
                or item_metadata.type is not None)
        else None)
-/
def tree_prcessing_mode (processing_mode : Option PMode) (is_first : Bool)
    (is_active_recurring : Bool) (itemType : Option MType) : Option Verdict :=
  if (processing_mode = some .serial ∧ is_first = true)
      ∨ processing_mode = some .parallel
      ∨ is_active_recurring = true then
    some .activate
  else if processing_mode = some .serial
      ∨ processing_mode = some .inactive
      ∨ itemType ≠ none then
    some .take
  else
    none

/-- v1 `process_item`, lines 326–331: the per-item verdict. -/
def item_processing_mode (tree : Option Verdict) (is_considered_leaf : Bool) :
    Option Verdict :=
  if tree = some .activate ∧ is_considered_leaf = true then some .activate
  else if tree = some .activate ∨ tree = some .take then some .take
  else none

/-- v1 `process_item`, lines 345–349: the mode handed to children. -/
def child_processing_mode (itemType : Option MType) (tree : Option Verdict) :
    Option PMode :=
  match itemType with
  | none => none
  | some t =>
    if tree = some .take then some .inactive
    else match t with
      | .serial => some .serial
      | .parallel => some .parallel

/-- The tree-level verdict exactly as claim C1 words it: `activate` when
(the inherited mode is serial and the node is first) or the inherited mode is
parallel or the node is an active recurring task; otherwise `take` when the
inherited mode is serial or inactive or the node's modifier kind is not none;
otherwise none. -/
def treeVerdictClaim (processing_mode : Option PMode) (is_first : Bool)
    (is_active_recurring : Bool) (modifierKind : Option MType) : Option Verdict :=
  if (processing_mode = some .serial ∧ is_first = true) then some .activate
  else if processing_mode = some .parallel then some .activate
  else if is_active_recurring = true then some .activate
  else if processing_mode = some .serial then some .take
  else if processing_mode = some .inactive then some .take
  else if modifierKind ≠ none then some .take
  else none

/-- C1: for every combination of inherited processing mode, first-position
flag, active-recurring status and modifier kind, the tree-level verdict
computed by v1's `process_item` equals the verdict described by the claim. -/
theorem tree_verdict_matches_claim (pm : Option PMode) (first : Bool)
    (iar : Bool) (mk : Option MType) :
    tree_prcessing_mode pm first iar mk = treeVerdictClaim pm first iar mk := by
  rcases pm with _ | pm <;> rcases mk with _ | mk <;>
    cases first <;> cases iar <;> first
      | rfl
      | (cases pm <;> rfl)

/-! ## The delay annotation matcher (Modifier Parser)

Both engines use `re.match('(.*){(.*?)}', str)` (`has_delay_suffix`,
v1 lines 218–223 and v2 lines 261–266).  `re.match` anchors at the start
only, and `.` matches any character except a newline, so both groups are
confined to the segment of the string before its first newline.  Within
that segment the greedy `(.*)` selects the last `{` that still has a `}`
after it, the lazy `(.*?)` stops at the first `}` following it, and
anything after that `}` — the rest of the line and all later lines — is
simply left unmatched: trailing text neither prevents the match nor
survives into either group. -/

def lbrace : Char := Char.ofNat 123

def rbrace : Char := Char.ofNat 125

/-- The segment of the string before its first newline: the only part of
the input `(.*)` and `(.*?)` can traverse, since Python's `.` does not
match a newline. -/
def firstLine (s : List Char) : List Char := s.takeWhile (fun c => c != '\n')

/-- Groups 1 and 2 of `re.match('(.*){(.*?)}', s)` on a newline-free
segment, or `none` when the pattern does not match it. -/
def lastBrace : List Char → Option (List Char × List Char)
  | [] => none
  | c :: rest =>
    match lastBrace rest with
    | some (g1, g2) => some (c :: g1, g2)
    | none =>
      if c = lbrace ∧ rbrace ∈ rest then
        some ([], rest.takeWhile (fun d => d != rbrace))
      else none

/-- `has_delay_suffix(str)`: `(m.group(2), m.group(1))` on a match,
`(None, str)` otherwise; the match is computed on the segment before the
first newline, which is all the anchored, newline-free pattern can reach. -/
def has_delay_suffix (s : List Char) : Option (List Char) × List Char :=
  match lastBrace (firstLine s) with
  | some (g1, g2) => (some g2, g1)
  | none => (none, s)

/-- Whether a newline-free segment contains a `{` with a `}` somewhere
after it — the condition under which `re.match('(.*){(.*?)}', s)` succeeds
on that segment. -/
def hasPairB : List Char → Bool
  | [] => false
  | c :: rest =>
    if c = lbrace ∧ rbrace ∈ rest then true else hasPairB rest

theorem hasPairB_exists (s : List Char) :
    hasPairB s = true ↔ ∃ p m q, s = p ++ lbrace :: (m ++ rbrace :: q) := by
  induction s with
  | nil =>
    constructor
    · intro h; simp [hasPairB] at h
    · rintro ⟨p, m, q, hpq⟩; cases p <;> simp at hpq
  | cons c rest ih =>
    constructor
    · intro h
      by_cases hc : c = lbrace ∧ rbrace ∈ rest
      · rcases List.append_of_mem hc.2 with ⟨m, q, hm⟩
        exact ⟨[], m, q, by rw [hm, hc.1]; simp⟩
      · rw [hasPairB, if_neg hc] at h
        rcases ih.mp h with ⟨p, m, q, hpq⟩
        exact ⟨c :: p, m, q, by rw [List.cons_append, hpq]⟩
    · rintro ⟨p, m, q, hpq⟩
      cases p with
      | nil =>
        rw [List.nil_append, List.cons_eq_cons] at hpq
        have hmem : rbrace ∈ rest := by
          rw [hpq.2]
          exact List.mem_append_right m (List.mem_cons_self _ _)
        rw [hasPairB, if_pos ⟨hpq.1, hmem⟩]
      | cons d p2 =>
        rw [List.cons_append, List.cons_eq_cons] at hpq
        have hrest : hasPairB rest = true := ih.mpr ⟨p2, m, q, hpq.2⟩
        rw [hasPairB]
        by_cases hc : c = lbrace ∧ rbrace ∈ rest
        · rw [if_pos hc]
        · rw [if_neg hc]; exact hrest

theorem lastBrace_none_iff (s : List Char) :
    lastBrace s = none ↔ hasPairB s = false := by
  induction s with
  | nil => simp [lastBrace, hasPairB]
  | cons c rest ih =>
    cases h : lastBrace rest with
    | some p =>
      have hrest : hasPairB rest = true := by
        cases hr : hasPairB rest with
        | true => rfl
        | false => rw [ih.mpr hr] at h; exact absurd h (by simp)
      constructor
      · intro hnone
        rw [lastBrace, h] at hnone
        rcases p with ⟨p1, p2⟩
        exact absurd hnone (by simp)
      · intro hfalse
        exfalso
        rw [hasPairB] at hfalse
        by_cases hc : c = lbrace ∧ rbrace ∈ rest
        · rw [if_pos hc] at hfalse; exact absurd hfalse (by simp)
        · rw [if_neg hc] at hfalse
          rw [hfalse] at hrest
          exact absurd hrest (by simp)
    | none =>
      have hrest : hasPairB rest = false := ih.mp h
      by_cases hc : c = lbrace ∧ rbrace ∈ rest
      · constructor
        · intro hnone
          rw [lastBrace, h, if_pos hc] at hnone
          exact absurd hnone (by simp)
        · intro hfalse
          rw [hasPairB, if_pos hc] at hfalse
          exact absurd hfalse (by simp)
      · constructor
        · intro _
          rw [hasPairB, if_neg hc]
          exact hrest
        · intro _
          rw [lastBrace, h, if_neg hc]

theorem dropWhile_mem_split (l : List Char) (a : Char) (h : a ∈ l) :
    ∃ q, l.dropWhile (fun d => d != a) = a :: q := by
  induction l with
  | nil => cases h
  | cons x xs ih =>
    by_cases hx : x = a
    · subst hx
      exact ⟨xs, by simp [List.dropWhile]⟩
    · have hmem : a ∈ xs := by
        rcases List.mem_cons.mp h with h2 | h2
        · exact absurd h2.symm hx
        · exact h2
      rcases ih hmem with ⟨q, hq⟩
      refine ⟨q, ?_⟩
      rw [List.dropWhile_cons]
      simp [bne_iff_ne, hx, hq]

theorem takeWhile_append_eq (g2 q : List Char) (h : rbrace ∉ g2) :
    (g2 ++ rbrace :: q).takeWhile (fun d => d != rbrace) = g2 := by
  induction g2 with
  | nil => simp [List.takeWhile_cons]
  | cons x xs ih =>
    have hx : x ≠ rbrace := fun hxe => h (hxe ▸ List.mem_cons_self x xs)
    have hxs : rbrace ∉ xs := fun hm => h (List.mem_cons_of_mem x hm)
    simp only [List.cons_append, List.takeWhile_cons]
    simp [bne_iff_ne, hx, ih hxs]

theorem mem_takeWhile_ne (l : List Char) :
    rbrace ∉ l.takeWhile (fun d => d != rbrace) := by
  intro h
  have := List.mem_takeWhile_imp h
  simp [bne_iff_ne] at this

/-- Full characterization of a successful delay-pattern match: `lastBrace`
returns `(g1, g2)` exactly when the input splits as
`g1 ++ '{' :: g2 ++ '}' :: q` where `g2` contains no `}` (the lazy group) and
the remainder after the matched `{` contains no later `{`-`}` pair (the
greedy group picks the last opening brace that still closes). -/
theorem lastBrace_some_iff (s g1 g2 : List Char) :
    lastBrace s = some (g1, g2) ↔
      ∃ q, s = g1 ++ lbrace :: (g2 ++ rbrace :: q) ∧ rbrace ∉ g2 ∧
        hasPairB (g2 ++ rbrace :: q) = false := by
  induction s generalizing g1 g2 with
  | nil =>
    constructor
    · intro h; simp [lastBrace] at h
    · rintro ⟨q, hq, -, -⟩; cases g1 <;> simp at hq
  | cons c rest ih =>
    cases h : lastBrace rest with
    | some p =>
      rcases p with ⟨h1, h2⟩
      constructor
      · intro hsome
        rw [lastBrace, h] at hsome
        have he : c :: h1 = g1 ∧ h2 = g2 := by
          have := Option.some.inj hsome
          exact ⟨congrArg Prod.fst this, congrArg Prod.snd this⟩
        rcases (ih h1 h2).mp h with ⟨q, hq, hnm, hnp⟩
        refine ⟨q, ?_, he.2 ▸ hnm, he.2 ▸ hnp⟩
        rw [← he.1, ← he.2, List.cons_append, ← hq]
      · rintro ⟨q, hq, hnm, hnp⟩
        cases g1 with
        | nil =>
          rw [List.nil_append, List.cons_eq_cons] at hq
          have hfalse : hasPairB rest = false := hq.2 ▸ hnp
          have hnone : lastBrace rest = none := (lastBrace_none_iff rest).mpr hfalse
          rw [h] at hnone; exact absurd hnone (by simp)
        | cons d g12 =>
          rw [List.cons_append, List.cons_eq_cons] at hq
          have := (ih g12 g2).mpr ⟨q, hq.2, hnm, hnp⟩
          rw [h] at this
          have hinj : h1 = g12 ∧ h2 = g2 := by
            have := Option.some.inj this
            exact ⟨congrArg Prod.fst this, congrArg Prod.snd this⟩
          rw [lastBrace, h, hq.1, hinj.1, hinj.2]
    | none =>
      have hrest : hasPairB rest = false := (lastBrace_none_iff rest).mp h
      by_cases hc : c = lbrace ∧ rbrace ∈ rest
      · constructor
        · intro hsome
          rw [lastBrace, h, if_pos hc] at hsome
          have he : ([] : List Char) = g1 ∧ rest.takeWhile (fun d => d != rbrace) = g2 := by
            have := Option.some.inj hsome
            exact ⟨congrArg Prod.fst this, congrArg Prod.snd this⟩
          rcases dropWhile_mem_split rest rbrace hc.2 with ⟨q, hq⟩
          have hg2rest : g2 ++ rbrace :: q = rest := by
            rw [← he.2, ← hq, List.takeWhile_append_dropWhile]
          refine ⟨q, ?_, he.2 ▸ mem_takeWhile_ne rest, ?_⟩
          · rw [← he.1, List.nil_append, hc.1, hg2rest]
          · rw [hg2rest]; exact hrest
        · rintro ⟨q, hq, hnm, hnp⟩
          cases g1 with
          | nil =>
            rw [List.nil_append, List.cons_eq_cons] at hq
            have hg2 : rest.takeWhile (fun d => d != rbrace) = g2 := by
              rw [hq.2]; exact takeWhile_append_eq g2 q hnm
            rw [lastBrace, h, if_pos hc, hg2]
          | cons d g12 =>
            rw [List.cons_append, List.cons_eq_cons] at hq
            have : hasPairB rest = true := by
              refine (hasPairB_exists rest).mpr ⟨g12, g2, q, hq.2⟩
            rw [this] at hrest; exact absurd hrest (by simp)
      · constructor
        · intro hsome
          rw [lastBrace, h, if_neg hc] at hsome
          exact absurd hsome (by simp)
        · rintro ⟨q, hq, hnm, hnp⟩
          exfalso
          cases g1 with
          | nil =>
            rw [List.nil_append, List.cons_eq_cons] at hq
            refine hc ⟨hq.1, ?_⟩
            rw [hq.2]
            exact List.mem_append_right g2 (List.mem_cons_self _ _)
          | cons d g12 =>
            rw [List.cons_append, List.cons_eq_cons] at hq
            have : hasPairB rest = true :=
              (hasPairB_exists rest).mpr ⟨g12, g2, q, hq.2⟩
            rw [this] at hrest; exact absurd hrest (by simp)

/-- C6 counterexample: on input `a{b}c` the delay step matches (returning
token `b` and remainder `a`, silently dropping the trailing `c`) even though
the `{token}` is not the trailing annotation — the trimmed string does not
even end with `}`.  The claim says text following the braces prevents a
match. -/
theorem delay_matches_despite_trailing_text :
    has_delay_suffix ['a', lbrace, 'b', rbrace, 'c'] = (some ['b'], ['a']) ∧
    endswith (pystrip ['a', lbrace, 'b', rbrace, 'c']) [rbrace] = false := by
  constructor <;> decide

/-- C6 amended: the delay step matches exactly when the segment of the
working string before its first newline contains some `{` with a `}` after
it (the pattern is anchored at the start only and `.` does not cross a
newline, so the match is confined to the first line, and text after the
braces — on the same line or on later lines — neither prevents the match
nor survives into the remainder); on a match the recorded token is the
minimal span after the last such `{` in that segment up to the next `}`,
and the new working string is the segment's prefix before that `{`. -/
theorem delay_match_characterization :
    (∀ s, (has_delay_suffix s).1 = none ↔ hasPairB (firstLine s) = false) ∧
    (∀ s g1 g2, has_delay_suffix s = (some g2, g1) ↔
      ∃ q, firstLine s = g1 ++ lbrace :: (g2 ++ rbrace :: q) ∧ rbrace ∉ g2 ∧
        hasPairB (g2 ++ rbrace :: q) = false) ∧
    (∀ s, hasPairB s = true ↔ ∃ p m q, s = p ++ lbrace :: (m ++ rbrace :: q)) := by
  refine ⟨?_, ?_, hasPairB_exists⟩
  · intro s
    unfold has_delay_suffix
    cases h : lastBrace (firstLine s) with
    | some p =>
      have hp : hasPairB (firstLine s) = true := by
        cases hq : hasPairB (firstLine s) with
        | true => rfl
        | false =>
          rw [(lastBrace_none_iff (firstLine s)).mpr hq] at h
          exact absurd h (by simp)
      simp [hp]
    | none => simp [(lastBrace_none_iff (firstLine s)).mp h]
  · intro s g1 g2
    unfold has_delay_suffix
    cases h : lastBrace (firstLine s) with
    | some p =>
      rcases p with ⟨h1, h2⟩
      constructor
      · intro he
        have e2 : h2 = g2 := Option.some.inj (congrArg Prod.fst he)
        have e1 : h1 = g1 := congrArg Prod.snd he
        exact (lastBrace_some_iff (firstLine s) g1 g2).mp (by rw [← e1, ← e2]; exact h)
      · intro hex
        have hsome := (lastBrace_some_iff (firstLine s) g1 g2).mpr hex
        rw [h] at hsome
        have hinj : h1 = g1 ∧ h2 = g2 := by
          have := Option.some.inj hsome
          exact ⟨congrArg Prod.fst this, congrArg Prod.snd this⟩
        rw [hinj.1, hinj.2]
    | none =>
      constructor
      · intro he
        exact absurd (congrArg Prod.fst he) (by simp)
      · intro hex
        have hsome := (lastBrace_some_iff (firstLine s) g1 g2).mpr hex
        rw [h] at hsome
        exact absurd hsome (by simp)

/-- Witness for C6's amended theorem at concrete inputs, including
newline-bearing ones: on `a`, newline, `{b}` there is no match (the braces
lie beyond the first newline), while on `x{a}`, newline, `{b}` the match is
confined to the first line, giving token `a` and remainder `x`. -/
theorem delay_match_characterization_witness :
    (has_delay_suffix ['a', '\n', lbrace, 'b', rbrace]).1 = none ∧
    has_delay_suffix ['x', lbrace, 'a', rbrace, '\n', lbrace, 'b', rbrace] =
      (some ['a'], ['x']) :=
  ⟨(delay_match_characterization.1 ['a', '\n', lbrace, 'b', rbrace]).mpr (by decide),
   (delay_match_characterization.2.1
      ['x', lbrace, 'a', rbrace, '\n', lbrace, 'b', rbrace] ['x'] ['a']).mpr
     ⟨[], by decide, by decide, by decide⟩⟩


/-! ## Dates and the two `strptime` formats of `parse_due`

`parse_due` tries `datetime.strptime(due['date'], '%Y-%m-%dT%H:%M:%S')` and
falls back to `'%Y-%m-%d'`; a failure of the fallback propagates.  CPython's
`strptime` compiles each directive to a regex alternation matched with
backtracking (`%Y` → four digits, `%m` → `1[0-2]|0[1-9]|[1-9]`,
`%d` → `3[01]|[12]\d|0[1-9]|[1-9]`, `%H` → `2[0-3]|[0-1]\d|\d`,
`%M` → `[0-5]\d|\d`, `%S` → `6[0-1]|[0-5]\d|\d`), requires the whole string
to be consumed, and then builds a `datetime`, which additionally validates
the calendar day (and rejects leap seconds and year 0).  The candidate lists
below enumerate the alternation in CPython's order; the first full match is
the regex result. -/

structure PyDateTime where
  year : Nat
  month : Nat
  day : Nat
  hour : Nat
  minute : Nat
  second : Nat
deriving DecidableEq, Repr

def digitVal (c : Char) : Option Nat :=
  if '0' ≤ c ∧ c ≤ '9' then some (c.toNat - 48) else none

/-- `%Y`: exactly four digits. -/
def candY : List Char → Option (Nat × List Char)
  | a :: b :: c :: d :: rest =>
    match digitVal a, digitVal b, digitVal c, digitVal d with
    | some x, some y, some z, some w => some (x*1000 + y*100 + z*10 + w, rest)
    | _, _, _, _ => none
  | _ => none

/-- `%m`: `1[0-2]|0[1-9]|[1-9]`, candidates in alternation order. -/
def candM (cs : List Char) : List (Nat × List Char) :=
  (match cs with
   | a :: b :: rest =>
     match digitVal a, digitVal b with
     | some x, some y =>
       (if x = 1 ∧ y ≤ 2 then [(10 + y, rest)] else []) ++
       (if x = 0 ∧ 1 ≤ y then [(y, rest)] else [])
     | _, _ => []
   | _ => []) ++
  (match cs with
   | a :: rest =>
     match digitVal a with
     | some x => if 1 ≤ x then [(x, rest)] else []
     | none => []
   | _ => [])

/-- `%d`: `3[01]|[12]\d|0[1-9]|[1-9]`. -/
def candD (cs : List Char) : List (Nat × List Char) :=
  (match cs with
   | a :: b :: rest =>
     match digitVal a, digitVal b with
     | some x, some y =>
       (if x = 3 ∧ y ≤ 1 then [(30 + y, rest)] else []) ++
       (if 1 ≤ x ∧ x ≤ 2 then [(10*x + y, rest)] else []) ++
       (if x = 0 ∧ 1 ≤ y then [(y, rest)] else [])
     | _, _ => []
   | _ => []) ++
  (match cs with
   | a :: rest =>
     match digitVal a with
     | some x => if 1 ≤ x then [(x, rest)] else []
     | none => []
   | _ => [])

/-- `%H`: `2[0-3]|[0-1]\d|\d`. -/
def candH (cs : List Char) : List (Nat × List Char) :=
  (match cs with
   | a :: b :: rest =>
     match digitVal a, digitVal b with
     | some x, some y =>
       (if x = 2 ∧ y ≤ 3 then [(20 + y, rest)] else []) ++
       (if x ≤ 1 then [(10*x + y, rest)] else [])
     | _, _ => []
   | _ => []) ++
  (match cs with
   | a :: rest =>
     match digitVal a with
     | some x => [(x, rest)]
     | none => []
   | _ => [])

/-- `%M`: `[0-5]\d|\d`. -/
def candMin (cs : List Char) : List (Nat × List Char) :=
  (match cs with
   | a :: b :: rest =>
     match digitVal a, digitVal b with
     | some x, some y => if x ≤ 5 then [(10*x + y, rest)] else []
     | _, _ => []
   | _ => []) ++
  (match cs with
   | a :: rest =>
     match digitVal a with
     | some x => [(x, rest)]
     | none => []
   | _ => [])

/-- `%S`: `6[0-1]|[0-5]\d|\d` (leap seconds match the pattern but fail the
`datetime` constructor). -/
def candS (cs : List Char) : List (Nat × List Char) :=
  (match cs with
   | a :: b :: rest =>
     match digitVal a, digitVal b with
     | some x, some y =>
       (if x = 6 ∧ y ≤ 1 then [(60 + y, rest)] else []) ++
       (if x ≤ 5 then [(10*x + y, rest)] else [])
     | _, _ => []
   | _ => []) ++
  (match cs with
   | a :: rest =>
     match digitVal a with
     | some x => [(x, rest)]
     | none => []
   | _ => [])

/-- All full-consumption matches of `%Y-%m-%dT%H:%M:%S`, in backtracking
order. -/
def matchYmdHMS (cs : List Char) : List PyDateTime :=
  match candY cs with
  | none => []
  | some (y, r1) =>
    match r1 with
    | '-' :: r2 =>
      (candM r2).flatMap (fun pm =>
        match pm.2 with
        | '-' :: r4 =>
          (candD r4).flatMap (fun pd =>
            match pd.2 with
            | 'T' :: r6 =>
              (candH r6).flatMap (fun ph =>
                match ph.2 with
                | ':' :: r8 =>
                  (candMin r8).flatMap (fun pmi =>
                    match pmi.2 with
                    | ':' :: r10 =>
                      (candS r10).flatMap (fun ps =>
                        if ps.2 = [] then
                          [⟨y, pm.1, pd.1, ph.1, pmi.1, ps.1⟩]
                        else [])
                    | _ => [])
                | _ => [])
            | _ => [])
        | _ => [])
    | _ => []

/-- All full-consumption matches of `%Y-%m-%d`, in backtracking order. -/
def matchYmd (cs : List Char) : List PyDateTime :=
  match candY cs with
  | none => []
  | some (y, r1) =>
    match r1 with
    | '-' :: r2 =>
      (candM r2).flatMap (fun pm =>
        match pm.2 with
        | '-' :: r4 =>
          (candD r4).flatMap (fun pd =>
            if pd.2 = [] then [⟨y, pm.1, pd.1, 0, 0, 0⟩] else [])
        | _ => [])
    | _ => []

def isLeap (y : Nat) : Bool :=
  y % 4 = 0 ∧ (y % 100 ≠ 0 ∨ y % 400 = 0)

def daysInMonth (y m : Nat) : Nat :=
  if m = 2 then (if isLeap y then 29 else 28)
  else if m = 4 ∨ m = 6 ∨ m = 9 ∨ m = 11 then 30
  else 31

/-- The validation performed by the `datetime` constructor on the regex
groups (ranges the patterns already enforce are rechecked harmlessly). -/
def validDate (dt : PyDateTime) : Bool :=
  1 ≤ dt.year ∧ 1 ≤ dt.month ∧ dt.month ≤ 12 ∧
  1 ≤ dt.day ∧ dt.day ≤ daysInMonth dt.year dt.month ∧
  dt.hour ≤ 23 ∧ dt.minute ≤ 59 ∧ dt.second ≤ 59

/-- `datetime.strptime(s, '%Y-%m-%dT%H:%M:%S')`: `some dt` on success,
`none` when Python raises `ValueError` (no regex match, or the constructor
rejects the first match). -/
def strptimeDateTime (s : List Char) : Option PyDateTime :=
  match matchYmdHMS s with
  | [] => none
  | dt :: _ => if validDate dt then some dt else none

/-- `datetime.strptime(s, '%Y-%m-%d')`. -/
def strptimeDate (s : List Char) : Option PyDateTime :=
  match matchYmd s with
  | [] => none
  | dt :: _ => if validDate dt then some dt else none

/-! ## The task-store data model

A task node carries the fields the two engines read.  Time zones are
modelled as UTC offsets in minutes and the run's "now" as a UTC timestamp;
`pytz` localization becomes pairing a parsed datetime with an offset, and
comparison of aware datetimes becomes comparison of the resulting UTC
instants. -/

structure Due where
  date : List Char
  timezone : Option Int
  is_recurring : Bool
  string : List Char
deriving DecidableEq, Repr

structure Item where
  id : Nat
  parent_id : Option Nat
  child_order : Nat
  content : List Char
  checked : Bool
  date_completed : Option Nat
  due : Option Due
  labels : List Nat
deriving DecidableEq, Repr

/-- Days from 1970-01-01 for a civil date (years ≥ 1, so all intermediate
divisions are on non-negative numbers). -/
def daysFromCivil (y m d : Nat) : Int :=
  let yi : Int := (y : Int) - (if m ≤ 2 then 1 else 0)
  let era : Int := yi / 400
  let yoe : Int := yi - era * 400
  let doy : Int := (153 * ((m : Int) + (if 2 < m then -3 else 9)) + 2) / 5 + (d : Int) - 1
  let doe : Int := yoe * 365 + yoe / 4 - yoe / 100 + doy
  era * 146097 + doe - 719468

/-- The UTC instant (seconds) of a naive datetime localized at a fixed
offset (minutes east of UTC). -/
def toUtc (dt : PyDateTime) (offset : Int) : Int :=
  daysFromCivil dt.year dt.month dt.day * 86400 +
    (dt.hour : Int) * 3600 + (dt.minute : Int) * 60 + (dt.second : Int) -
    offset * 60

/-- Modelled from the spec: the per-run context.  The label identifiers, the
run time zone and "now" are the module-level globals the engines resolve
once per run (§6); `normalize` stands in for the task store's rendering of a
staged due *string* into a due descriptor (`stage_update` of §6 — the store
itself is an external collaborator, and within a run the engines never read
back a due descriptor they staged). -/
structure Env where
  nodate_label_id : Nat
  next_label_ids : List Nat
  parallel_suffix : List Char
  serial_suffix : List Char
  timezone : Int
  nowUtc : Int
  normalize : List Char → Due
  hostname : List Char
  nowStr : List Char

/-- Shared by both engines: `due['is_recurring'] if not due is None else
False`. -/
def is_recurring (item : Item) : Bool :=
  match item.due with
  | some due => due.is_recurring
  | none => false

/-- Python exceptions distinguished by the claims: `TypeError` (comparing
`False` with a datetime) and `ValueError` (`strptime` failure). -/
inductive PyErr where
  | typeErr
  | valueErr
deriving DecidableEq, Repr

/-- The dynamically-typed result of v1's `parse_due`: the Python value
`False`, or a localized datetime. -/
inductive PyDueVal where
  | pyFalse
  | pyDt (offset : Int) (dt : PyDateTime)
deriving DecidableEq, Repr

namespace V1

/-- v1 `parse_due` (lines 267–277): returns Python `False` when the item has
no due descriptor; otherwise localizes the parsed date in the descriptor's
own time zone if set, else the run's; raises `ValueError` when the date
string matches neither format. -/
def parse_due (env : Env) (item : Item) : Except PyErr PyDueVal :=
  match item.due with
  | none => .ok .pyFalse
  | some due =>
    let tz := due.timezone.getD env.timezone
    match strptimeDateTime due.date with
    | some dt => .ok (.pyDt tz dt)
    | none =>
      match strptimeDate due.date with
      | some dt => .ok (.pyDt tz dt)
      | none => .error .valueErr

/-- v1 `is_active` (lines 279–283): the `if due is None` guard never fires
(`parse_due` yields `False`, not `None`), so on a `False` result Python
evaluates `False <= now` and raises `TypeError`. -/
def is_active (env : Env) (item : Item) : Except PyErr Bool :=
  match parse_due env item with
  | .error e => .error e
  | .ok .pyFalse => .error .typeErr
  | .ok (.pyDt offset dt) => .ok (decide (toUtc dt offset ≤ env.nowUtc))

/-- v1 `process_item` line 301: `is_recurring and is_active(item)` — the
short-circuit conjunction evaluates `is_active` only when `is_recurring`
is truthy. -/
def is_active_recurring (env : Env) (item : Item) : Except PyErr Bool :=
  if is_recurring item then is_active env item else .ok false

end V1

/-- C10: v1's `parse_due` returns the Python bool `False` (not a datetime)
when a task has no due descriptor, and `is_active` would then raise
`TypeError` on the comparison with "now"; but whenever the descriptor is
non-null, `parse_due` returns a localized datetime (or raises `ValueError`
inside `strptime`, never `TypeError`), and since `is_active` is reached only
through the short-circuit `is_recurring and is_active(item)` — and
`is_recurring` is `False` when the descriptor is null — the engine never
evaluates the ill-typed comparison. -/
theorem parse_due_bool_guarded :
    (∀ (env : Env) (item : Item), item.due = none →
      V1.parse_due env item = .ok .pyFalse ∧
      V1.is_active env item = .error .typeErr) ∧
    (∀ (env : Env) (item : Item), item.due ≠ none →
      ((∃ offset dt, V1.parse_due env item = .ok (.pyDt offset dt)) ∨
        V1.parse_due env item = .error .valueErr) ∧
      V1.is_active env item ≠ .error .typeErr) ∧
    (∀ (env : Env) (item : Item),
      V1.is_active_recurring env item ≠ .error .typeErr) := by
  refine ⟨?_, ?_, ?_⟩
  · intro env item h
    unfold V1.is_active V1.parse_due
    rw [h]
    exact ⟨rfl, rfl⟩
  · intro env item h
    rcases hd : item.due with _ | due
    · exact absurd hd h
    · cases h1 : strptimeDateTime due.date with
      | some dt =>
        refine ⟨Or.inl ⟨due.timezone.getD env.timezone, dt, ?_⟩, ?_⟩
        · simp only [V1.parse_due, hd, h1]
        · simp only [V1.is_active, V1.parse_due, hd, h1]
          simp
      | none =>
        cases h2 : strptimeDate due.date with
        | some dt =>
          refine ⟨Or.inl ⟨due.timezone.getD env.timezone, dt, ?_⟩, ?_⟩
          · simp only [V1.parse_due, hd, h1, h2]
          · simp only [V1.is_active, V1.parse_due, hd, h1, h2]
            simp
        | none =>
          refine ⟨Or.inr ?_, ?_⟩
          · simp only [V1.parse_due, hd, h1, h2]
          · simp only [V1.is_active, V1.parse_due, hd, h1, h2]
            simp
  · intro env item
    unfold V1.is_active_recurring
    by_cases hr : is_recurring item = true
    · rw [hr]
      simp only [if_true]
      rcases hd : item.due with _ | due
      · unfold is_recurring at hr
        rw [hd] at hr
        exact absurd hr (by simp)
      · cases h1 : strptimeDateTime due.date with
        | some dt =>
          simp only [V1.is_active, V1.parse_due, hd, h1]
          simp
        | none =>
          cases h2 : strptimeDate due.date with
          | some dt =>
            simp only [V1.is_active, V1.parse_due, hd, h1, h2]
            simp
          | none =>
            simp only [V1.is_active, V1.parse_due, hd, h1, h2]
            simp
    · rw [Bool.not_eq_true] at hr
      rw [hr]
      simp

/-- Witness for C10 at a concrete item with and without a due descriptor. -/
theorem parse_due_bool_guarded_witness :
    V1.parse_due
      ⟨7, [], [], [], 0, 0, fun _ => ⟨[], none, false, []⟩, [], []⟩
      ⟨1, none, 1, [], false, none, none, []⟩ = .ok .pyFalse :=
  (parse_due_bool_guarded.1
    ⟨7, [], [], [], 0, 0, fun _ => ⟨[], none, false, []⟩, [], []⟩
    ⟨1, none, 1, [], false, none, none, []⟩ rfl).1

/-! ## Staged store mutations

Every `item.update(...)`, `item.uncomplete()` and `item.close()` appends a
command to the client-side queue; the local item data is updated in place.
The walk therefore returns the evolved store together with the queue.
Items are addressed by their position in the project's flat item list. -/

inductive Mut where
  | dueSet (idx : Nat) (s : List Char)
  | dueCleared (idx : Nat)
  | labelsSet (idx : Nat) (labels : List Nat)
  | contentSet (idx : Nat) (content : List Char)
  | uncompleted (idx : Nat)
  | closed (idx : Nat)
deriving DecidableEq, Repr

def todayStr : List Char := ['t', 'o', 'd', 'a', 'y']

namespace V1

/-- v1 `has_suffix` (lines 212–216). -/
def has_suffix (s suf : List Char) : Bool × List Char :=
  if endswith s suf then (true, dropsuffix s suf) else (false, s)

structure ItemMetadata where
  type : Option MType
  delay : Option (List Char)
deriving DecidableEq, Repr

/-- The `while True` loop of v1 `parse_item_metadata` (lines 229–242),
fuel-indexed: every iteration that continues strips at least one character
when the configured markers are non-empty, so `name.length + 1` steps
suffice; fuel exhaustion corresponds to the infinite loop Python would enter
for an empty marker string. -/
def parseLoop (env : Env) : Nat → List Char → ItemMetadata → ItemMetadata
  | 0, _, md => md
  | fuel + 1, name, md =>
    let p := has_suffix name env.parallel_suffix
    if p.1 then parseLoop env fuel p.2 ⟨some .parallel, md.delay⟩
    else
      let sr := has_suffix p.2 env.serial_suffix
      if sr.1 then parseLoop env fuel sr.2 ⟨some .serial, md.delay⟩
      else
        match has_delay_suffix sr.2 with
        | (some tok, name3) => parseLoop env fuel name3 ⟨md.type, some tok⟩
        | (none, _) => md

/-- v1 `parse_item_metadata` (lines 225–243): strip the content, then loop
over the three suffix checks. -/
def parse_item_metadata (env : Env) (content : List Char) : ItemMetadata :=
  parseLoop env ((pystrip content).length + 1) (pystrip content) ⟨none, none⟩

/-- v1 `get_subitems` (lines 149–158), as positions into the flat item list:
children of `parent_id` in list order, excluding completed items unless
`include_completed`. -/
def get_subitems (items : List Item) (parent_id : Option Nat)
    (include_completed : Bool) : List Nat :=
  (List.range items.length).filter (fun j =>
    match items[j]? with
    | some it =>
      (include_completed || it.date_completed.isNone) &&
        decide (it.parent_id = parent_id)
    | none => false)

/-- v1 `uncomplete` (lines 285–290): if completed, uncomplete and, if a due
date is present, clear it. -/
def uncomplete (s : List Item) (j : Nat) : List Item × List Mut :=
  match s[j]? with
  | none => (s, [])
  | some it =>
    if it.date_completed ≠ none then
      let it1 : Item := { it with date_completed := none, checked := false }
      if it1.due ≠ none then
        (s.set j { it1 with due := none }, [.uncompleted j, .dueCleared j])
      else (s.set j it1, [.uncompleted j])
    else (s, [])

/-- v1 `set_date` (lines 261–265): assign the delay token or `'today'` only
when no due date is set.  The store's rendering of the staged string is
`env.normalize`. -/
def set_date (env : Env) (s : List Item) (j : Nat) (delay : Option (List Char)) :
    List Item × List Mut :=
  match s[j]? with
  | none => (s, [])
  | some it =>
    if it.due = none then
      let new_due := delay.getD todayStr
      (s.set j { it with due := some (env.normalize new_due) }, [.dueSet j new_due])
    else (s, [])

/-- v1 `add_nodate_label` (lines 245–251). -/
def add_nodate_label (env : Env) (s : List Item) (j : Nat) : List Item × List Mut :=
  match s[j]? with
  | none => (s, [])
  | some it =>
    if env.nodate_label_id ∈ it.labels then (s, [])
    else
      let labels := it.labels ++ [env.nodate_label_id]
      (s.set j { it with labels := labels }, [.labelsSet j labels])

/-- v1 `remove_nodate_label` (lines 253–259). -/
def remove_nodate_label (env : Env) (s : List Item) (j : Nat) : List Item × List Mut :=
  match s[j]? with
  | none => (s, [])
  | some it =>
    if env.nodate_label_id ∈ it.labels then
      let labels := it.labels.erase env.nodate_label_id
      (s.set j { it with labels := labels }, [.labelsSet j labels])
    else (s, [])

/-- `item.close()` (v1 line 364).  Locally the item becomes checked; for a
recurring task the *store* additionally advances the due date to the next
occurrence, which is outside this model (the walk never reads the item again
in the same run). -/
def close (s : List Item) (j : Nat) : List Item × List Mut :=
  match s[j]? with
  | none => (s, [])
  | some it =>
    (s.set j { it with checked := true, date_completed := some 0 }, [.closed j])

/-- The side effects of v1 `process_item` lines 354–364, by per-item
verdict. -/
def apply_item_mode (env : Env) (s : List Item) (j : Nat)
    (imode : Option Verdict) (iar : Bool) (delay : Option (List Char)) :
    List Item × List Mut :=
  match imode with
  | some .activate =>
    let r1 := uncomplete s j
    let r2 := set_date env r1.1 j delay
    let r3 := remove_nodate_label env r2.1 j
    (r3.1, r1.2 ++ r2.2 ++ r3.2)
  | some .take =>
    let r1 := uncomplete s j
    let r2 :=
      match r1.1[j]? with
      | some it1 => if it1.due = none then add_nodate_label env r1.1 j else (r1.1, [])
      | none => (r1.1, [])
    let r3 := if iar then close r2.1 j else (r2.1, [])
    (r3.1, r1.2 ++ r2.2 ++ r3.2)
  | none => (s, [])

/-- A record of one `process_item` invocation: position, inherited
`processing_mode`, `is_first`. -/
abbrev Call := Nat × Option PMode × Bool

/-- The `for idx, child in enumerate(child_items)` loop shape shared by
`process_item` and `process_project`: run `step` on every listed position,
threading the store and passing `is_first = (idx == 0)`, stopping at the
first exception. -/
def childFold (step : List Item → Nat → Bool → Except PyErr (List Item × List Mut × List Call)) :
    List Item → List Nat → Nat → Except PyErr (List Item × List Mut × List Call)
  | s, [], _ => .ok (s, [], [])
  | s, j :: rest, i =>
    match step s j (i == 0) with
    | .error e => .error e
    | .ok (s1, q1, tr1) =>
      match childFold step s1 rest (i + 1) with
      | .error e => .error e
      | .ok (s2, q2, tr2) => .ok (s2, q1 ++ q2, tr1 ++ tr2)

/-- v1 `process_item` (lines 292–367), fuel-indexed.  Returns the evolved
store, the staged mutation queue and the trace of `process_item`
invocations (each node records its own call, then its children's). -/
def process_item (env : Env) : Nat → List Item → Option PMode → Nat → Bool →
    Except PyErr (List Item × List Mut × List Call)
  | 0, s, _, _, _ => .ok (s, [], [])
  | fuel + 1, s, pm, j, first =>
    match s[j]? with
    | none => .ok (s, [], [])
    | some it =>
      match is_active_recurring env it with
      | .error e => .error e
      | .ok iar =>
        let child_idxs := get_subitems s (some it.id) iar
        let md := parse_item_metadata env it.content
        let is_considered_leaf := child_idxs.isEmpty
        let tree := tree_prcessing_mode pm first iar md.type
        let imode := item_processing_mode tree is_considered_leaf
        let cmode := child_processing_mode md.type tree
        let r1 := apply_item_mode env s j imode iar md.delay
        match childFold (fun s1 j1 f1 => process_item env fuel s1 cmode j1 f1)
            r1.1 child_idxs 0 with
        | .error e => .error e
        | .ok (s2, q2, tr) => .ok (s2, r1.2 ++ q2, (j, pm, first) :: tr)

/-- The recursion over children with `is_first = (idx == 0)` (v1 lines
366–367). -/
def process_children (env : Env) (fuel : Nat) (cmode : Option PMode) :
    List Item → List Nat → Nat → Except PyErr (List Item × List Mut × List Call) :=
  childFold (fun s j f => process_item env fuel s cmode j f)

end V1

/-- Store projection of a v1 walk result. -/
def resultStore (r : Except PyErr (List Item × List Mut × List V1.Call)) :
    Option (List Item) :=
  match r with
  | .ok (s, _, _) => some s
  | .error _ => none

/-- Queue projection of a v1 walk result. -/
def resultMuts (r : Except PyErr (List Item × List Mut × List V1.Call)) :
    Option (List Mut) :=
  match r with
  | .ok (_, q, _) => some q
  | .error _ => none

/-- Trace projection of a v1 walk result. -/
def resultTrace (r : Except PyErr (List Item × List Mut × List V1.Call)) :
    Option (List V1.Call) :=
  match r with
  | .ok (_, _, tr) => some tr
  | .error _ => none

/-- The due field of item `j` after a v1 walk. -/
def dueAt (r : Except PyErr (List Item × List Mut × List V1.Call)) (j : Nat) :
    Option (Option Due) :=
  (resultStore r).bind fun s => (s[j]?).map Item.due

/-- The label set of item `j` after a v1 walk. -/
def labelsAt (r : Except PyErr (List Item × List Mut × List V1.Call)) (j : Nat) :
    Option (List Nat) :=
  (resultStore r).bind fun s => (s[j]?).map Item.labels

/-- The completion flag of item `j` after a v1 walk. -/
def checkedAt (r : Except PyErr (List Item × List Mut × List V1.Call)) (j : Nat) :
    Option Bool :=
  (resultStore r).bind fun s => (s[j]?).map Item.checked

/-- A concrete run context: blocking label 100, default marker strings,
UTC run zone, "now" = 2020-01-01T00:00:00Z, and a store rendering that
parses every staged due string to 2020-01-01. -/
def env1 : Env :=
  { nodate_label_id := 100
    next_label_ids := []
    parallel_suffix := ['(', '=', ')']
    serial_suffix := ['(', '-', ')']
    timezone := 0
    nowUtc := 1577836800
    normalize := fun str =>
      ⟨['2','0','2','0','-','0','1','-','0','1'], none, false, str⟩
    hostname := ['h']
    nowStr := ['n'] }

/-- A serial-modified parent with three active, clean leaf children A, B, C
(positions 1, 2, 3) in sibling order. -/
def store4 : List Item :=
  [ ⟨1, none, 1, ['P', ' ', '(', '-', ')'], false, none, none, []⟩,
    ⟨2, some 1, 2, ['A'], false, none, none, []⟩,
    ⟨3, some 1, 3, ['B'], false, none, none, []⟩,
    ⟨4, some 1, 4, ['C'], false, none, none, []⟩ ]

/-- C4 counterexample: a serial-modified parent whose own inherited mode is
`None` (a top-level item of an untyped project).  The tree verdict for the
parent is `take`, the children inherit `inactive`, and one run leaves A with
the blocking label and no due date — A is *not* activated, contradicting the
claim as universally stated. -/
theorem serial_child_not_activated_in_plain_context :
    labelsAt (V1.process_item env1 5 store4 none 0 true) 1 = some [100] ∧
    dueAt (V1.process_item env1 5 store4 none 0 true) 1 = some none := by
  exact ⟨rfl, rfl⟩

/-- C4 amended: *when the serial-modified parent is itself in an activating
context* (here: it inherits `parallel`, as the top item of a parallel
project), one run activates exactly the first child A (due date set,
blocking label absent) and takes B and C (blocking label present, no due
date). -/
theorem serial_parent_activates_first_child :
    dueAt (V1.process_item env1 5 store4 (some .parallel) 0 true) 1 =
      some (some (env1.normalize todayStr)) ∧
    labelsAt (V1.process_item env1 5 store4 (some .parallel) 0 true) 1 = some [] ∧
    labelsAt (V1.process_item env1 5 store4 (some .parallel) 0 true) 2 = some [100] ∧
    dueAt (V1.process_item env1 5 store4 (some .parallel) 0 true) 2 = some none ∧
    labelsAt (V1.process_item env1 5 store4 (some .parallel) 0 true) 3 = some [100] ∧
    dueAt (V1.process_item env1 5 store4 (some .parallel) 0 true) 3 = some none := by
  exact ⟨rfl, rfl, rfl, rfl, rfl, rfl⟩

/-- An active recurring serial-modified parent (due long past) whose first
child in sibling order (position 1) is *completed* and whose second child
(position 2) is the first *active* child. -/
def store9 : List Item :=
  [ ⟨1, none, 1, ['P', ' ', '(', '-', ')'], false, none,
      some ⟨['2','0','0','0','-','0','1','-','0','2'], none, true, []⟩, []⟩,
    ⟨2, some 1, 2, ['C'], true, some 5, none, []⟩,
    ⟨3, some 1, 3, ['A'], false, none, none, []⟩ ]

/-- C9 counterexample: on the recurring path the recursion set includes
completed children, so `is_first = true` is passed to the *completed* first
child (position 1) — which is then uncompleted and activated — while the
first *active* child (position 2) receives `is_first = false` and is taken
(blocking label, no due date).  The claim says the flag is true iff the
child is first among the currently active children. -/
theorem is_first_given_to_completed_child :
    resultTrace (V1.process_item env1 5 store9 none 0 true) =
      some [(0, none, true), (1, some .serial, true), (2, some .serial, false)] ∧
    (store9[1]?).map Item.checked = some true ∧
    checkedAt (V1.process_item env1 5 store9 none 0 true) 1 = some false ∧
    dueAt (V1.process_item env1 5 store9 none 0 true) 1 =
      some (some (env1.normalize todayStr)) ∧
    labelsAt (V1.process_item env1 5 store9 none 0 true) 2 = some [100] ∧
    dueAt (V1.process_item env1 5 store9 none 0 true) 2 = some none := by
  exact ⟨rfl, rfl, rfl, rfl, rfl, rfl⟩

/-- C9 amended: the `is_first` flag passed to a child is true iff the child
is at index 0 of the node's *recursion set* — `get_subitems` with
`include_completed = is_active_recurring`.  When the node is not an active
recurring task this set is exactly the currently active children in sibling
order (second conjunct), but on the recurring path it also contains the
completed children, so the flag may mark a completed child rather than the
first active one.  First conjunct: the child loop passes `idx == 0` and
continues with `idx + 1`.  Third conjunct: one step of `process_item`
recurses exactly over this set. -/
theorem is_first_head_of_recursion_set :
    (∀ (env : Env) (fuel : Nat) (cmode : Option PMode) (s : List Item)
        (j : Nat) (rest : List Nat) (i : Nat),
      V1.process_children env fuel cmode s (j :: rest) i =
        (match V1.process_item env fuel s cmode j (i == 0) with
         | .error e => .error e
         | .ok (s1, q1, tr1) =>
           match V1.process_children env fuel cmode s1 rest (i + 1) with
           | .error e => .error e
           | .ok (s2, q2, tr2) => .ok (s2, q1 ++ q2, tr1 ++ tr2)) ∧
        ((i == 0) = true ↔ i = 0)) ∧
    (∀ (s : List Item) (pid : Option Nat),
      V1.get_subitems s pid false =
        (V1.get_subitems s pid true).filter (fun j =>
          match s[j]? with
          | some it => it.date_completed.isNone
          | none => false)) ∧
    (∀ (env : Env) (fuel : Nat) (s : List Item) (pm : Option PMode) (j : Nat)
        (first : Bool) (it : Item) (iar : Bool),
      s[j]? = some it → V1.is_active_recurring env it = .ok iar →
      V1.process_item env (fuel + 1) s pm j first =
        (match V1.process_children env fuel
            (child_processing_mode (V1.parse_item_metadata env it.content).type
              (tree_prcessing_mode pm first iar (V1.parse_item_metadata env it.content).type))
            (V1.apply_item_mode env s j
              (item_processing_mode
                (tree_prcessing_mode pm first iar (V1.parse_item_metadata env it.content).type)
                (V1.get_subitems s (some it.id) iar).isEmpty)
              iar (V1.parse_item_metadata env it.content).delay).1
            (V1.get_subitems s (some it.id) iar) 0 with
         | .error e => .error e
         | .ok (s2, q2, tr) =>
           .ok (s2,
             (V1.apply_item_mode env s j
               (item_processing_mode
                 (tree_prcessing_mode pm first iar (V1.parse_item_metadata env it.content).type)
                 (V1.get_subitems s (some it.id) iar).isEmpty)
               iar (V1.parse_item_metadata env it.content).delay).2 ++ q2,
             (j, pm, first) :: tr))) := by
  refine ⟨?_, ?_, ?_⟩
  · intro env fuel cmode s j rest i
    exact ⟨rfl, by simp⟩
  · intro s pid
    unfold V1.get_subitems
    rw [List.filter_filter]
    apply List.filter_congr
    intro j _
    cases hj : s[j]? with
    | none => rfl
    | some it =>
      simp only [Bool.false_or]
      cases hdc : it.date_completed.isNone <;>
        cases hp : decide (it.parent_id = pid) <;> rfl
  · intro env fuel s pm j first it iar hj hiar
    simp only [V1.process_item, hj, hiar]
    rfl

/-- A single plain item, for instantiating C9's amended theorem. -/
def itemW : Item := ⟨1, none, 1, ['x'], false, none, none, []⟩

/-- Witness for C9's amended theorem: the one-step unfolding instantiated at
a concrete one-item store. -/
theorem is_first_head_of_recursion_set_witness :
    V1.process_item env1 (0 + 1) [itemW] none 0 true =
      (match V1.process_children env1 0
          (child_processing_mode (V1.parse_item_metadata env1 itemW.content).type
            (tree_prcessing_mode none true false (V1.parse_item_metadata env1 itemW.content).type))
          (V1.apply_item_mode env1 [itemW] 0
            (item_processing_mode
              (tree_prcessing_mode none true false (V1.parse_item_metadata env1 itemW.content).type)
              (V1.get_subitems [itemW] (some itemW.id) false).isEmpty)
            false (V1.parse_item_metadata env1 itemW.content).delay).1
          (V1.get_subitems [itemW] (some itemW.id) false) 0 with
       | .error e => .error e
       | .ok (s2, q2, tr) =>
         .ok (s2,
           (V1.apply_item_mode env1 [itemW] 0
             (item_processing_mode
               (tree_prcessing_mode none true false (V1.parse_item_metadata env1 itemW.content).type)
               (V1.get_subitems [itemW] (some itemW.id) false).isEmpty)
             false (V1.parse_item_metadata env1 itemW.content).delay).2 ++ q2,
           ((0 : Nat), (none : Option PMode), true) :: tr)) :=
  is_first_head_of_recursion_set.2.2 env1 0 [itemW] none 0 true itemW false rfl rfl

/-- Truthiness of `set(item['labels']).intersection(next_label_ids)` used by
v2 `set_date` (line 306): the item carries some next-eligible label. -/
def nextCheck (env : Env) (labels : List Nat) : Bool :=
  labels.any (fun l => decide (l ∈ env.next_label_ids))

/-! ## The second-iteration engine (v2) -/

namespace V2

/-- `'$TodoistUpdaterV2LastRun$'` (v2 line 15). -/
def LAST_RUN_CONST : List Char :=
  ['$', 'T', 'o', 'd', 'o', 'i', 's', 't', 'U', 'p', 'd', 'a', 't', 'e', 'r',
   'V', '2', 'L', 'a', 's', 't', 'R', 'u', 'n', '$']

/-- The fields of v2 `Props` that flow from a node to its children. -/
structure Props where
  is_parallel : Bool
  is_serial : Bool
  delay : Option (List Char)
  owned : Bool
  suppress_tree_due_now : Bool
deriving DecidableEq, Repr

/-- v2 `set_parallel_or_serial` (lines 237–241): strip a delay annotation,
then test the two markers on the remainder.  (`owned` and
`suppress_tree_due_now` start as Python `None`, modelled `false`; both are
falsy wherever read.) -/
def set_parallel_or_serial (env : Env) (name : List Char) : Props :=
  let d := has_delay_suffix name
  { is_parallel := endswith d.2 env.parallel_suffix
    is_serial := endswith d.2 env.serial_suffix
    delay := d.1
    owned := false
    suppress_tree_due_now := false }

/-- v2 `get_subitems` (lines 246–259): positions of the children of
`parent_id`, split `(completed, active)` by the `checked` flag, each in list
order. -/
def get_subitems (items : List Item) (parent_id : Option Nat) :
    List Nat × List Nat :=
  ((List.range items.length).filter fun j =>
      match items[j]? with
      | some it => decide (it.parent_id = parent_id) && it.checked
      | none => false,
   (List.range items.length).filter fun j =>
      match items[j]? with
      | some it => decide (it.parent_id = parent_id) && !it.checked
      | none => false)

/-- v2 `parse_due` (lines 324–334): `None` for no descriptor, otherwise the
parse of `due['date']` localized in the descriptor's zone if set, else the
run's; raises when both formats fail. -/
def parse_due (env : Env) (item : Item) :
    Except PyErr (Option (Int × PyDateTime)) :=
  match item.due with
  | none => .ok none
  | some due =>
    let tz := due.timezone.getD env.timezone
    match strptimeDateTime due.date with
    | some dt => .ok (some (tz, dt))
    | none =>
      match strptimeDate due.date with
      | some dt => .ok (some (tz, dt))
      | none => .error .valueErr

/-- v2 `is_due` (lines 318–322). -/
def is_due (env : Env) (item : Item) : Except PyErr Bool :=
  match parse_due env item with
  | .error e => .error e
  | .ok none => .ok false
  | .ok (some (tz, dt)) => .ok (decide (toUtc dt tz ≤ env.nowUtc))

/-- v2 `add_nodate_label` (lines 289–295), at the item level. -/
def add_nodate_label (env : Env) (j : Nat) (it : Item) : Item × List Mut :=
  if env.nodate_label_id ∈ it.labels then (it, [])
  else
    let labels := it.labels ++ [env.nodate_label_id]
    ({ it with labels := labels }, [.labelsSet j labels])

/-- v2 `remove_nodate_label` (lines 297–303). -/
def remove_nodate_label (env : Env) (j : Nat) (it : Item) : Item × List Mut :=
  if env.nodate_label_id ∈ it.labels then
    let labels := it.labels.erase env.nodate_label_id
    ({ it with labels := labels }, [.labelsSet j labels])
  else (it, [])

/-- v2 `set_date` (lines 305–312): skip entirely when the item carries any
"Next" label; otherwise assign the delay token or `'today'` only when no due
date is set. -/
def set_date (env : Env) (j : Nat) (it : Item) (props : Props) :
    Item × List Mut :=
  if nextCheck env it.labels then (it, [])
  else if it.due = none then
    let new_due := props.delay.getD todayStr
    ({ it with due := some (env.normalize new_due) }, [.dueSet j new_due])
  else (it, [])

/-- v2 `own_item` (lines 268–270). -/
def own_item (env : Env) (j : Nat) (it : Item) : Item × List Mut :=
  if it.due = none then add_nodate_label env j it else (it, [])

/-- v2 `activate_item` (lines 272–274). -/
def activate_item (env : Env) (j : Nat) (it : Item) (props : Props) :
    Item × List Mut :=
  let r1 := set_date env j it props
  let r2 := remove_nodate_label env j r1.1
  (r2.1, r1.2 ++ r2.2)

/-- v2 `process_item` lines 215–217: the last-run timestamp rewrite, staged
on *every* run for an item whose content starts with the marker. -/
def last_run_update (env : Env) (j : Nat) (it : Item) : Item × List Mut :=
  if startswith it.content LAST_RUN_CONST then
    let c := LAST_RUN_CONST ++ (':' :: ' ' :: env.hostname) ++ (' ' :: env.nowStr)
    ({ it with content := c }, [.contentSet j c])
  else (it, [])

/-- v2 `process_item` lines 166–196, the pure decision part: from the
parent's props, the node's content, `first = (idx == 0)` and whether it has
active subitems, compute the props handed to children together with
(`owned`, `item_due_now`). -/
def node_props (env : Env) (pp : Props) (content : List Char)
    (first : Bool) (has_active_subitems : Bool) : Props × Bool × Bool :=
  let p0 := set_parallel_or_serial env content
  let owned := pp.owned || p0.is_parallel || p0.is_serial
  let due_now := !pp.suppress_tree_due_now && (pp.is_parallel || pp.is_serial)
  let suppress := due_now && (pp.is_serial && !first)
  let item_due_now := due_now && !suppress &&
    !((p0.is_parallel || p0.is_serial) && has_active_subitems)
  ({ p0 with owned := owned, suppress_tree_due_now := suppress },
   owned, item_due_now)

/-- The per-node mutations of v2 `process_item` (lines 210–217): activate
when due now, else own when owned, then the last-run rewrite.
`props.recurring_reactivation` is `None` in the source ("Note: this does not
work now."), so the reactivation block of lines 200–208 never runs and is
omitted. -/
def mut_step (env : Env) (j : Nat) (it : Item) (props : Props)
    (item_due_now owned : Bool) : Item × List Mut :=
  let r1 :=
    if item_due_now then activate_item env j it props
    else if owned then own_item env j it
    else (it, [])
  let r2 := last_run_update env j r1.1
  (r2.1, r1.2 ++ r2.2)

/-- The `for idx, item in enumerate(active_subitems)` loop shape of v2
(lines 163–164 and 219–220). -/
def childFold2 (step : List Item → Nat → Bool → Except PyErr (List Item × List Mut)) :
    List Item → List Nat → Nat → Except PyErr (List Item × List Mut)
  | s, [], _ => .ok (s, [])
  | s, j :: rest, i =>
    match step s j (i == 0) with
    | .error e => .error e
    | .ok (s1, q1) =>
      match childFold2 step s1 rest (i + 1) with
      | .error e => .error e
      | .ok (s2, q2) => .ok (s2, q1 ++ q2)

/-- v2 `process_item` (lines 166–220), fuel-indexed. -/
def process_item (env : Env) : Nat → List Item → Props → Nat → Bool →
    Except PyErr (List Item × List Mut)
  | 0, s, _, _, _ => .ok (s, [])
  | fuel + 1, s, pp, j, first =>
    match s[j]? with
    | none => .ok (s, [])
    | some it =>
      let subs := get_subitems s (some it.id)
      let np := node_props env pp it.content first (!subs.2.isEmpty)
      match is_due env it with
      | .error e => .error e
      | .ok _ =>
        let r1 := mut_step env j it np.1 np.2.2 np.2.1
        match childFold2 (fun s2 j2 f2 => process_item env fuel s2 np.1 j2 f2)
            (s.set j r1.1) subs.2 0 with
        | .error e => .error e
        | .ok (s2, q2) => .ok (s2, r1.2 ++ q2)

/-- The children loop with an explicit inherited-props argument. -/
def process_children (env : Env) (fuel : Nat) (pp : Props) :
    List Item → List Nat → Nat → Except PyErr (List Item × List Mut) :=
  childFold2 (fun s j f => process_item env fuel s pp j f)

/-- Python `sorted(items, key=child_order)` (v2 lines 158–159): a stable
sort. -/
def sortItems (items : List Item) : List Item :=
  items.insertionSort (fun a b => a.child_order ≤ b.child_order)

/-- v2 `get_top_level_items` (lines 243–244). -/
def get_top_level_items (items : List Item) : List Nat × List Nat :=
  get_subitems items none

/-- v2 `process_project` (lines 143–164) for a non-archived project: project
props from the stripped project name (`owned`/`suppress` start falsy), items
sorted stably by `child_order`, then the walk over the active top-level
items. -/
def process_project (env : Env) (projectName : List Char) (items : List Item) :
    Except PyErr (List Item × List Mut) :=
  let pp := set_parallel_or_serial env (pystrip projectName)
  let sorted := sortItems items
  process_children env (sorted.length + 1) pp sorted
    (get_top_level_items sorted).2 0

end V2

/-- An item's optional lookup pins its index below the length. -/
theorem lt_length_of_getElem?_some {l : List Item} {j : Nat} {it : Item}
    (h : l[j]? = some it) : j < l.length := by
  by_contra hn
  push_neg at hn
  rw [List.getElem?_eq_none hn] at h
  exact absurd h (by simp)

/-- Setting the looked-up position. -/
theorem getElem?_set_of_some {l : List Item} {j : Nat} {it : Item} (x : Item)
    (h : l[j]? = some it) : (l.set j x)[j]? = some x :=
  List.getElem?_set_eq_of_lt x (lt_length_of_getElem?_some h)

/-- C5: for a node in the activate disposition, a due date is assigned
exactly by `set_date`: never when the node carries a label from the
next-eligible set; otherwise only when no due date is currently set (an
existing one is never overwritten), and then the parsed delay token if
present, else the default `'today'`.  The last conjunct ties the activate
disposition to `set_date`: `activate_item`'s effect on the due field is
`set_date`'s. -/
theorem set_date_next_eligible_spec :
    (∀ (env : Env) (j : Nat) (it : Item) (props : V2.Props),
      nextCheck env it.labels = true →
      V2.set_date env j it props = (it, [])) ∧
    (∀ (env : Env) (j : Nat) (it : Item) (props : V2.Props),
      nextCheck env it.labels = false →
      it.due ≠ none →
      V2.set_date env j it props = (it, [])) ∧
    (∀ (env : Env) (j : Nat) (it : Item) (props : V2.Props),
      nextCheck env it.labels = false →
      it.due = none →
      V2.set_date env j it props =
        ({ it with due := some (env.normalize (props.delay.getD todayStr)) },
         [Mut.dueSet j (props.delay.getD todayStr)])) ∧
    (∀ (env : Env) (j : Nat) (it : Item) (props : V2.Props),
      ((V2.activate_item env j it props).1).due = ((V2.set_date env j it props).1).due) := by
  refine ⟨?_, ?_, ?_, ?_⟩
  · intro env j it props h
    unfold V2.set_date
    rw [if_pos h]
  · intro env j it props h hdue
    unfold V2.set_date
    rw [if_neg (by rw [h]; simp), if_neg hdue]
  · intro env j it props h hdue
    unfold V2.set_date
    rw [if_neg (by rw [h]; simp), if_pos hdue]
  · intro env j it props
    simp only [V2.activate_item, V2.remove_nodate_label]
    by_cases hm : env.nodate_label_id ∈ ((V2.set_date env j it props).1).labels
    · rw [if_pos hm]
    · rw [if_neg hm]

/-- Witness for C5 at a concrete clean item. -/
theorem set_date_next_eligible_spec_witness :
    V2.set_date env1 0 ⟨1, none, 1, ['x'], false, none, none, []⟩
        ⟨false, false, none, false, false⟩ =
      (⟨1, none, 1, ['x'], false, none,
        some (env1.normalize todayStr), []⟩, [Mut.dueSet 0 todayStr]) :=
  set_date_next_eligible_spec.2.2.1 env1 0
    ⟨1, none, 1, ['x'], false, none, none, []⟩
    ⟨false, false, none, false, false⟩ rfl rfl

/-- v1 `uncomplete` changes only completion state and the due field at the
touched position; the label set survives. -/
theorem uncomplete_at (s : List Item) (j : Nat) (it : Item) (h : s[j]? = some it) :
    ∃ it1, ((V1.uncomplete s j).1)[j]? = some it1 ∧ it1.labels = it.labels := by
  simp only [V1.uncomplete, h]
  by_cases h1 : it.date_completed ≠ none
  · rw [if_pos h1]
    by_cases h2 : it.due ≠ none
    · rw [if_pos h2]
      exact ⟨_, getElem?_set_of_some _ h, rfl⟩
    · rw [if_neg h2]
      exact ⟨_, getElem?_set_of_some _ h, rfl⟩
  · rw [if_neg h1]
    exact ⟨it, h, rfl⟩

/-- v1 `set_date` changes only the due field at the touched position. -/
theorem set_date_at (env : Env) (s : List Item) (j : Nat)
    (delay : Option (List Char)) (it : Item) (h : s[j]? = some it) :
    ∃ it1, ((V1.set_date env s j delay).1)[j]? = some it1 ∧ it1.labels = it.labels := by
  simp only [V1.set_date, h]
  by_cases h1 : it.due = none
  · rw [if_pos h1]
    exact ⟨_, getElem?_set_of_some _ h, rfl⟩
  · rw [if_neg h1]
    exact ⟨it, h, rfl⟩

/-- The optional `close` of the v1 take branch keeps labels and due. -/
theorem close_or_id (iar : Bool) (s : List Item) (j : Nat) (it : Item)
    (h : s[j]? = some it) :
    ∃ it1, ((if iar = true then V1.close s j else (s, [])).1)[j]? = some it1 ∧
      it1.labels = it.labels ∧ it1.due = it.due := by
  cases iar with
  | false =>
    rw [if_neg (by simp)]
    exact ⟨it, h, rfl, rfl⟩
  | true =>
    rw [if_pos rfl]
    simp only [V1.close, h]
    exact ⟨_, getElem?_set_of_some _ h, rfl, rfl⟩

/-- C7: the blocking-label/due-date exclusivity the per-node mutation steps
establish on owned nodes.  v2: a node left actionable by `activate_item`
never carries the blocking label (labels are a set, i.e. duplicate-free);
a node owned by `own_item` while lacking a due date carries it, and
`own_item` never installs a due date.  v1: the `activate` branch of
`process_item` leaves the node without the blocking label; the `take` branch
leaves any node that ends up without a due date carrying it. -/
theorem owned_label_due_exclusion :
    (∀ (env : Env) (j : Nat) (it : Item) (props : V2.Props),
      it.labels.Nodup →
      env.nodate_label_id ∉ ((V2.activate_item env j it props).1).labels) ∧
    (∀ (env : Env) (j : Nat) (it : Item),
      it.due = none →
      env.nodate_label_id ∈ ((V2.own_item env j it).1).labels ∧
      ((V2.own_item env j it).1).due = none) ∧
    (∀ (env : Env) (s : List Item) (j : Nat) (iar : Bool)
        (delay : Option (List Char)) (it1 : Item),
      (∀ it0, s[j]? = some it0 → it0.labels.Nodup) →
      ((V1.apply_item_mode env s j (some .activate) iar delay).1)[j]? = some it1 →
      env.nodate_label_id ∉ it1.labels) ∧
    (∀ (env : Env) (s : List Item) (j : Nat) (iar : Bool)
        (delay : Option (List Char)) (it1 : Item),
      ((V1.apply_item_mode env s j (some .take) iar delay).1)[j]? = some it1 →
      it1.due = none → env.nodate_label_id ∈ it1.labels) := by
  refine ⟨?_, ?_, ?_, ?_⟩
  · intro env j it props hnd
    have hsd : ((V2.set_date env j it props).1).labels = it.labels := by
      simp only [V2.set_date]
      by_cases h1 : nextCheck env it.labels
      · rw [if_pos h1]
      · rw [if_neg h1]
        by_cases h2 : it.due = none
        · rw [if_pos h2]
        · rw [if_neg h2]
    simp only [V2.activate_item, V2.remove_nodate_label]
    by_cases hm : env.nodate_label_id ∈ ((V2.set_date env j it props).1).labels
    · rw [if_pos hm]
      simp only [hsd]
      intro hin
      exact ((List.Nodup.mem_erase_iff hnd).mp hin).1 rfl
    · rw [if_neg hm]
      simp only
      rw [hsd] at hm ⊢
      exact hm
  · intro env j it hdue
    simp only [V2.own_item]
    rw [if_pos hdue]
    simp only [V2.add_nodate_label]
    by_cases hm : env.nodate_label_id ∈ it.labels
    · rw [if_pos hm]
      exact ⟨hm, hdue⟩
    · rw [if_neg hm]
      exact ⟨by simp, hdue⟩
  · intro env s j iar delay it1 hnd hfin
    simp only [V1.apply_item_mode] at hfin
    rcases hs : s[j]? with _ | it0
    · have hu : V1.uncomplete s j = (s, []) := by
        simp only [V1.uncomplete, hs]
      have hsd : V1.set_date env s j delay = (s, []) := by
        simp only [V1.set_date, hs]
      have hrm : V1.remove_nodate_label env s j = (s, []) := by
        simp only [V1.remove_nodate_label, hs]
      rw [hu] at hfin
      simp only at hfin
      rw [hsd] at hfin
      simp only at hfin
      rw [hrm] at hfin
      simp only at hfin
      rw [hs] at hfin
      exact absurd hfin (by simp)
    · rcases uncomplete_at s j it0 hs with ⟨ita, ha, hla⟩
      rcases set_date_at env (V1.uncomplete s j).1 j delay ita ha with ⟨itb, hb, hlb⟩
      have hnd0 := hnd it0 hs
      rw [hla] at hlb
      simp only [V1.remove_nodate_label] at hfin
      rw [hb] at hfin
      simp only at hfin
      by_cases hm : env.nodate_label_id ∈ itb.labels
      · rw [if_pos hm] at hfin
        simp only at hfin
        rw [getElem?_set_of_some _ hb] at hfin
        simp only [Option.some.injEq] at hfin
        rw [← hfin, hlb]
        intro hin
        exact ((List.Nodup.mem_erase_iff hnd0).mp hin).1 rfl
      · rw [if_neg hm] at hfin
        simp only at hfin
        rw [hb] at hfin
        simp only [Option.some.injEq] at hfin
        rw [← hfin]
        exact hm
  · intro env s j iar delay it1 hfin hdue
    simp only [V1.apply_item_mode] at hfin
    rcases hs : s[j]? with _ | it0
    · have hu : V1.uncomplete s j = (s, []) := by
        simp only [V1.uncomplete, hs]
      have hcl : V1.close s j = (s, []) := by
        simp only [V1.close, hs]
      rw [hu] at hfin
      simp only [hs] at hfin
      cases iar with
      | true =>
        rw [if_pos rfl, hcl] at hfin
        simp only [hs] at hfin
        exact absurd hfin (by simp)
      | false =>
        rw [if_neg (by simp)] at hfin
        simp only [hs] at hfin
        exact absurd hfin (by simp)
    · rcases uncomplete_at s j it0 hs with ⟨ita, ha, hla⟩
      simp only [ha] at hfin
      by_cases hd : ita.due = none
      · rw [if_pos hd] at hfin
        simp only [V1.add_nodate_label, ha] at hfin
        by_cases hm : env.nodate_label_id ∈ ita.labels
        · rw [if_pos hm] at hfin
          simp only at hfin
          rcases close_or_id iar (V1.uncomplete s j).1 j ita ha with ⟨itc, hc, hlc, hdc⟩
          rw [hc] at hfin
          simp only [Option.some.injEq] at hfin
          rw [← hfin, hlc]
          exact hm
        · rw [if_neg hm] at hfin
          simp only at hfin
          have hbj : ((V1.uncomplete s j).1.set j
              { ita with labels := ita.labels ++ [env.nodate_label_id] })[j]? =
              some { ita with labels := ita.labels ++ [env.nodate_label_id] } :=
            getElem?_set_of_some _ ha
          rcases close_or_id iar _ j _ hbj with ⟨itc, hc, hlc, hdc⟩
          rw [hc] at hfin
          simp only [Option.some.injEq] at hfin
          rw [← hfin, hlc]
          simp
      · rw [if_neg hd] at hfin
        simp only at hfin
        rcases close_or_id iar (V1.uncomplete s j).1 j ita ha with ⟨itc, hc, hlc, hdc⟩
        rw [hc] at hfin
        simp only [Option.some.injEq] at hfin
        rw [← hfin] at hdue
        rw [hdc] at hdue
        exact absurd hdue hd

/-- Witness for C7 at concrete items. -/
theorem owned_label_due_exclusion_witness :
    env1.nodate_label_id ∉
      ((V2.activate_item env1 0 ⟨1, none, 1, ['x'], false, none, none, [3]⟩
        ⟨false, false, none, false, false⟩).1).labels ∧
    env1.nodate_label_id ∈
      ((V2.own_item env1 0 ⟨1, none, 1, ['x'], false, none, none, []⟩).1).labels :=
  ⟨owned_label_due_exclusion.1 env1 0 ⟨1, none, 1, ['x'], false, none, none, [3]⟩
      ⟨false, false, none, false, false⟩ (by simp),
   (owned_label_due_exclusion.2.1 env1 0 ⟨1, none, 1, ['x'], false, none, none, []⟩ rfl).1⟩

/-- A recurring task P with modifier kind none, due long before the run's
"now", with one previously completed child C. -/
def store2 : List Item :=
  [ ⟨1, none, 1, ['P'], false, none,
      some ⟨['2','0','0','0','-','0','1','-','0','2'], none, true, []⟩, []⟩,
    ⟨2, some 1, 2, ['C'], true, some 5, none, []⟩ ]

/-- C2 (code bug): on the recurring-reactivation input — recurring, modifier
kind none, due before "now", with a completed child — v2 stages *no mutation
at all* (its reactivation block is disabled in the source: "Note: this does
not work now."), and v1 closes the parent but passes mode `None` to its
children, so the completed child C stays completed instead of being
recursively uncompleted as documented. -/
theorem recurring_reactivation_not_performed :
    V2.process_project env1 ['p'] store2 = .ok (store2, []) ∧
    checkedAt (V1.process_item env1 5 store2 none 0 true) 1 = some true ∧
    resultMuts (V1.process_item env1 5 store2 none 0 true) = some [Mut.closed 0] :=
  ⟨rfl, rfl, rfl⟩

/-- C8: for a task with a non-null due descriptor, `parse_due` (both engine
iterations) raises exactly when the date string matches neither
`%Y-%m-%dT%H:%M:%S` nor `%Y-%m-%d`; the exception propagates uncaught
through the v2 tree walk — `process_item` has no handler (third conjunct)
and the child loop aborts, forwarding a child's exception (fourth
conjunct). -/
theorem parse_due_error_iff_bad_format :
    (∀ (env : Env) (item : Item) (due : Due), item.due = some due →
      (V1.parse_due env item = .error .valueErr ↔
        strptimeDateTime due.date = none ∧ strptimeDate due.date = none)) ∧
    (∀ (env : Env) (item : Item) (due : Due), item.due = some due →
      (V2.parse_due env item = .error .valueErr ↔
        strptimeDateTime due.date = none ∧ strptimeDate due.date = none)) ∧
    (∀ (env : Env) (fuel : Nat) (s : List Item) (pp : V2.Props) (j : Nat)
        (first : Bool) (it : Item) (due : Due),
      s[j]? = some it → it.due = some due →
      strptimeDateTime due.date = none → strptimeDate due.date = none →
      V2.process_item env (fuel + 1) s pp j first = .error .valueErr) ∧
    (∀ (step : List Item → Nat → Bool → Except PyErr (List Item × List Mut))
        (s : List Item) (j : Nat) (rest : List Nat) (i : Nat) (e : PyErr),
      step s j (i == 0) = .error e →
      V2.childFold2 step s (j :: rest) i = .error e) := by
  refine ⟨?_, ?_, ?_, ?_⟩
  · intro env item due hd
    simp only [V1.parse_due, hd]
    cases h1 : strptimeDateTime due.date with
    | some dt => simp
    | none =>
      cases h2 : strptimeDate due.date with
      | some dt => simp
      | none => simp
  · intro env item due hd
    simp only [V2.parse_due, hd]
    cases h1 : strptimeDateTime due.date with
    | some dt => simp
    | none =>
      cases h2 : strptimeDate due.date with
      | some dt => simp
      | none => simp
  · intro env fuel s pp j first it due hj hd h1 h2
    simp only [V2.process_item, hj, V2.is_due, V2.parse_due, hd, h1, h2]
  · intro step s j rest i e hstep
    simp only [V2.childFold2, hstep]

/-- Witness for C8: a date string matching neither format raises out of
the walk at a concrete one-item store. -/
theorem parse_due_error_iff_bad_format_witness :
    V2.process_item env1 (0 + 1)
      [⟨1, none, 1, ['x'], false, none, some ⟨['b','a','d'], none, false, []⟩, []⟩]
      ⟨false, false, none, false, false⟩ 0 true = .error .valueErr :=
  parse_due_error_iff_bad_format.2.2.1 env1 0
    [⟨1, none, 1, ['x'], false, none, some ⟨['b','a','d'], none, false, []⟩, []⟩]
    ⟨false, false, none, false, false⟩ 0 true
    ⟨1, none, 1, ['x'], false, none, some ⟨['b','a','d'], none, false, []⟩, []⟩
    ⟨['b','a','d'], none, false, []⟩ rfl rfl rfl rfl

/-! ## Idempotence of the v2 walk (C3)

The traversal of the v2 walk — which children exist, which are active,
every verdict — depends only on the *static* item fields (id, parent,
order, content, checked): the walk's live paths never toggle completion and,
provided no item carries the last-run marker, never rewrite content.  The
development below projects out those fields, shows the walk preserves them,
shows two runs from stores agreeing on the visited positions stay in
lockstep, and concludes that a second run stages nothing. -/

structure Stat where
  id : Nat
  parent_id : Option Nat
  child_order : Nat
  content : List Char
  checked : Bool
deriving DecidableEq, Repr

def stat (it : Item) : Stat :=
  ⟨it.id, it.parent_id, it.child_order, it.content, it.checked⟩

def statEq (s t : List Item) : Prop := s.map stat = t.map stat

/-- No item's content starts with the v2 last-run marker. -/
def NoLastRun (s : List Item) : Prop :=
  ∀ it ∈ s, startswith it.content V2.LAST_RUN_CONST = false

/-- Every item's label list is duplicate-free (labels are a set in the
store). -/
def NodupLabels (s : List Item) : Prop :=
  ∀ it ∈ s, it.labels.Nodup

/-- The store renders every staged due string to a date `parse_due` can
parse. -/
def GoodNorm (env : Env) : Prop :=
  ∀ str, strptimeDateTime (env.normalize str).date ≠ none ∨
    strptimeDate (env.normalize str).date ≠ none

theorem statEq_refl (s : List Item) : statEq s s := rfl

theorem statEq_getElem? {s t : List Item} (h : statEq s t) (j : Nat) :
    (s[j]?).map stat = (t[j]?).map stat := by
  rw [← List.getElem?_map, ← List.getElem?_map, h]

theorem statEq_length {s t : List Item} (h : statEq s t) :
    s.length = t.length := by
  have := congrArg List.length h
  simpa using this

theorem statEq_none_iff {s t : List Item} (h : statEq s t) (j : Nat) :
    s[j]? = none ↔ t[j]? = none := by
  have := statEq_getElem? h j
  constructor <;> intro h1
  · rw [h1] at this
    cases h2 : t[j]? with
    | none => rfl
    | some it => rw [h2] at this; exact absurd this (by simp)
  · rw [h1] at this
    cases h2 : s[j]? with
    | none => rfl
    | some it => rw [h2] at this; exact absurd this (by simp)

theorem statEq_some {s t : List Item} (h : statEq s t) {j : Nat} {it : Item}
    (hj : s[j]? = some it) : ∃ it2, t[j]? = some it2 ∧ stat it2 = stat it := by
  have := statEq_getElem? h j
  rw [hj] at this
  cases h2 : t[j]? with
  | none => rw [h2] at this; exact absurd this (by simp)
  | some it2 =>
    rw [h2] at this
    simp only [Option.map_some', Option.some.injEq] at this
    exact ⟨it2, rfl, this.symm⟩

/-- v2 `get_subitems` reads only static fields. -/
theorem get_subitems_statEq {s t : List Item} (h : statEq s t)
    (pid : Option Nat) : V2.get_subitems s pid = V2.get_subitems t pid := by
  unfold V2.get_subitems
  rw [statEq_length h, Prod.mk.injEq]
  constructor <;>
  · apply List.filter_congr
    intro j _
    have hst := statEq_getElem? h j
    cases h1 : s[j]? with
    | none =>
      rw [h1] at hst
      cases h2 : t[j]? with
      | none => rfl
      | some it => rw [h2] at hst; exact absurd hst (by simp)
    | some it =>
      rcases statEq_some h h1 with ⟨it2, h2, hs2⟩
      have hp : it2.parent_id = it.parent_id := congrArg Stat.parent_id hs2
      have hc : it2.checked = it.checked := congrArg Stat.checked hs2
      simp only [h2, hp, hc]

/-- Fold used by the static visit plan. -/
def planFold (f : Nat → List Nat) : List Nat → List Nat
  | [] => []
  | j :: rest => f j ++ planFold f rest

/-- The positions a `process_item` call visits, computed from the store's
static fields alone. -/
def plan (s : List Item) : Nat → Nat → List Nat
  | 0, _ => []
  | fuel + 1, j =>
    match s[j]? with
    | none => []
    | some it => j :: planFold (fun c => plan s fuel c) (V2.get_subitems s (some it.id)).2

/-- The positions a children loop visits. -/
def planList (s : List Item) (fuel : Nat) (idxs : List Nat) : List Nat :=
  planFold (fun c => plan s fuel c) idxs

theorem planFold_congr {f g : Nat → List Nat} :
    ∀ {l : List Nat}, (∀ x ∈ l, f x = g x) → planFold f l = planFold g l := by
  intro l
  induction l with
  | nil => intro _; rfl
  | cons j rest ih =>
    intro h
    simp only [planFold]
    rw [h j (List.mem_cons_self _ _), ih (fun x hx => h x (List.mem_cons_of_mem _ hx))]

theorem plan_statEq {s t : List Item} (h : statEq s t) :
    ∀ fuel j, plan s fuel j = plan t fuel j := by
  intro fuel
  induction fuel with
  | zero => intro j; rfl
  | succ fuel ih =>
    intro j
    cases h1 : s[j]? with
    | none =>
      have h2 := (statEq_none_iff h j).mp h1
      simp only [plan, h1, h2]
    | some it =>
      rcases statEq_some h h1 with ⟨it2, h2, hs2⟩
      have hid : it2.id = it.id := congrArg Stat.id hs2
      simp only [plan, h1, h2, hid, get_subitems_statEq h (some it.id)]
      rw [planFold_congr (fun x _ => ih x)]

theorem planList_statEq {s t : List Item} (h : statEq s t) (fuel : Nat)
    (idxs : List Nat) : planList s fuel idxs = planList t fuel idxs :=
  planFold_congr (fun x _ => plan_statEq h fuel x)

/-- Replacing an entry with one sharing its statics preserves the static
projection. -/
theorem statEq_set {s : List Item} {j : Nat} {it x : Item}
    (hj : s[j]? = some it) (hx : stat x = stat it) : statEq (s.set j x) s := by
  unfold statEq
  apply List.ext_getElem?
  intro n
  rw [List.getElem?_map, List.getElem?_map]
  by_cases hn : j = n
  · subst hn
    rw [getElem?_set_of_some x hj, hj]
    simp [hx]
  · rw [List.getElem?_set_ne hn]

/-- Setting a position to the value it already holds is a no-op. -/
theorem set_getElem?_self {s : List Item} {j : Nat} {it : Item}
    (hj : s[j]? = some it) : s.set j it = s := by
  apply List.ext_getElem?
  intro n
  by_cases hn : j = n
  · subst hn
    rw [getElem?_set_of_some it hj, hj]
  · rw [List.getElem?_set_ne hn]

/-- Membership transfers along lookups. -/
theorem mem_of_getElem? {s : List Item} {j : Nat} {it : Item}
    (h : s[j]? = some it) : it ∈ s := by
  rcases List.getElem?_eq_some.mp h with ⟨hlt, hget⟩
  rw [← hget]
  exact List.getElem_mem hlt

theorem noLastRun_statEq {s t : List Item} (h : statEq s t)
    (hn : NoLastRun s) : NoLastRun t := by
  intro it2 hmem
  rcases List.mem_iff_getElem?.mp hmem with ⟨j, hj⟩
  have := statEq_getElem? h j
  rw [hj] at this
  cases h1 : s[j]? with
  | none => rw [h1] at this; exact absurd this (by simp)
  | some it =>
    rw [h1] at this
    simp only [Option.map_some', Option.some.injEq] at this
    have hc : it2.content = it.content := congrArg Stat.content this.symm
    rw [hc]
    exact hn it (mem_of_getElem? h1)

theorem sd_fields (env : Env) (j : Nat) (it : Item) (props : V2.Props) :
    stat ((V2.set_date env j it props).1) = stat it ∧
    ((V2.set_date env j it props).1).labels = it.labels ∧
    (((V2.set_date env j it props).1).due = it.due ∨
      ((V2.set_date env j it props).1).due =
        some (env.normalize (props.delay.getD todayStr))) ∧
    ((V2.set_date env j it props).2 = [] → (V2.set_date env j it props).1 = it) ∧
    (it.due ≠ none → V2.set_date env j it props = (it, [])) := by
  unfold V2.set_date
  by_cases h1 : nextCheck env it.labels = true
  · rw [if_pos h1]
    exact ⟨rfl, rfl, Or.inl rfl, fun _ => rfl, fun _ => rfl⟩
  · rw [if_neg h1]
    by_cases h2 : it.due = none
    · rw [if_pos h2]
      refine ⟨rfl, rfl, Or.inr rfl, ?_, ?_⟩
      · intro hq; exact absurd hq (by simp)
      · intro hd; exact absurd h2 hd
    · rw [if_neg h2]
      exact ⟨rfl, rfl, Or.inl rfl, fun _ => rfl, fun _ => rfl⟩

theorem sd_skip_of_nextCheck (env : Env) (j : Nat) (it : Item)
    (props : V2.Props) (h : nextCheck env it.labels = true) :
    V2.set_date env j it props = (it, []) := by
  unfold V2.set_date
  rw [if_pos h]

theorem sd_skip_of_due (env : Env) (j : Nat) (it : Item) (props : V2.Props)
    (h : it.due ≠ none) : V2.set_date env j it props = (it, []) :=
  (sd_fields env j it props).2.2.2.2 h

theorem sd_due_some (env : Env) (j : Nat) (it : Item) (props : V2.Props)
    (h : nextCheck env it.labels = false) :
    ((V2.set_date env j it props).1).due ≠ none := by
  unfold V2.set_date
  rw [if_neg (by rw [h]; simp)]
  by_cases h2 : it.due = none
  · rw [if_pos h2]; simp
  · rw [if_neg h2]; exact h2

theorem rm_fields (env : Env) (j : Nat) (it : Item) :
    stat ((V2.remove_nodate_label env j it).1) = stat it ∧
    ((V2.remove_nodate_label env j it).1).due = it.due ∧
    ((V2.remove_nodate_label env j it).2 = [] →
      (V2.remove_nodate_label env j it).1 = it) ∧
    (it.labels.Nodup → ((V2.remove_nodate_label env j it).1).labels.Nodup) ∧
    (it.labels.Nodup →
      env.nodate_label_id ∉ ((V2.remove_nodate_label env j it).1).labels) ∧
    (env.nodate_label_id ∉ it.labels → V2.remove_nodate_label env j it = (it, [])) := by
  unfold V2.remove_nodate_label
  by_cases hm : env.nodate_label_id ∈ it.labels
  · rw [if_pos hm]
    refine ⟨rfl, rfl, ?_, ?_, ?_, ?_⟩
    · intro hq; exact absurd hq (by simp)
    · intro hnd; exact hnd.erase _
    · intro hnd hin
      exact ((List.Nodup.mem_erase_iff hnd).mp hin).1 rfl
    · intro hnm; exact absurd hm hnm
  · rw [if_neg hm]
    exact ⟨rfl, rfl, fun _ => rfl, fun hnd => hnd, fun _ => hm, fun _ => rfl⟩

theorem nextCheck_any (env : Env) (ls : List Nat) :
    nextCheck env ls = ls.any (fun l => decide (l ∈ env.next_label_ids)) := rfl

theorem rm_nextCheck (env : Env) (j : Nat) (it : Item)
    (hnn : env.nodate_label_id ∉ env.next_label_ids) :
    nextCheck env ((V2.remove_nodate_label env j it).1).labels =
      nextCheck env it.labels := by
  unfold V2.remove_nodate_label
  by_cases hm : env.nodate_label_id ∈ it.labels
  · rw [if_pos hm]
    show nextCheck env (it.labels.erase env.nodate_label_id) = nextCheck env it.labels
    rw [nextCheck_any, nextCheck_any]
    cases ho : it.labels.any (fun l => decide (l ∈ env.next_label_ids)) with
    | true =>
      rcases List.any_eq_true.mp ho with ⟨l, hl, hlp⟩
      have hlnext : l ∈ env.next_label_ids := of_decide_eq_true hlp
      have hne : l ≠ env.nodate_label_id := fun he => hnn (he ▸ hlnext)
      exact List.any_eq_true.mpr ⟨l, (List.mem_erase_of_ne hne).mpr hl, hlp⟩
    | false =>
      cases hr : (it.labels.erase env.nodate_label_id).any
          (fun l => decide (l ∈ env.next_label_ids)) with
      | false => rfl
      | true =>
        rcases List.any_eq_true.mp hr with ⟨l, hl, hlp⟩
        have hcontra : it.labels.any (fun l => decide (l ∈ env.next_label_ids)) = true :=
          List.any_eq_true.mpr ⟨l, List.mem_of_mem_erase hl, hlp⟩
        rw [ho] at hcontra
        exact absurd hcontra (by simp)
  · rw [if_neg hm]

theorem add_fields (env : Env) (j : Nat) (it : Item) :
    stat ((V2.add_nodate_label env j it).1) = stat it ∧
    ((V2.add_nodate_label env j it).1).due = it.due ∧
    env.nodate_label_id ∈ ((V2.add_nodate_label env j it).1).labels ∧
    (it.labels.Nodup → ((V2.add_nodate_label env j it).1).labels.Nodup) ∧
    (env.nodate_label_id ∈ it.labels → V2.add_nodate_label env j it = (it, [])) := by
  unfold V2.add_nodate_label
  by_cases hm : env.nodate_label_id ∈ it.labels
  · rw [if_pos hm]
    exact ⟨rfl, rfl, hm, fun hnd => hnd, fun _ => rfl⟩
  · rw [if_neg hm]
    refine ⟨rfl, rfl, by simp, ?_, fun hin => absurd hin hm⟩
    intro hnd
    rw [List.nodup_append]
    exact ⟨hnd, List.nodup_singleton _, by
      intro a ha hb
      simp only [List.mem_singleton] at hb
      exact hm (hb ▸ ha)⟩

theorem lr_identity (env : Env) (j : Nat) (it : Item)
    (h : startswith it.content V2.LAST_RUN_CONST = false) :
    V2.last_run_update env j it = (it, []) := by
  unfold V2.last_run_update
  rw [if_neg (by rw [h]; simp)]

/-- Static fields, emptiness, due-provenance and label-set discipline of the
v2 per-node mutation step, under the no-last-run-marker hypothesis. -/
theorem mut_step_facts (env : Env) (j : Nat) (it : Item) (props : V2.Props)
    (dn ow : Bool) (hnl : startswith it.content V2.LAST_RUN_CONST = false) :
    stat ((V2.mut_step env j it props dn ow).1) = stat it ∧
    ((V2.mut_step env j it props dn ow).2 = [] →
      (V2.mut_step env j it props dn ow).1 = it) ∧
    (((V2.mut_step env j it props dn ow).1).due = it.due ∨
      ∃ str, ((V2.mut_step env j it props dn ow).1).due = some (env.normalize str)) ∧
    (it.labels.Nodup → ((V2.mut_step env j it props dn ow).1).labels.Nodup) := by
  unfold V2.mut_step V2.activate_item V2.own_item
  by_cases hdn : dn = true
  · rw [if_pos hdn]
    have hsd := sd_fields env j it props
    have hrm := rm_fields env j ((V2.set_date env j it props).1)
    have hcontent : ((V2.remove_nodate_label env j ((V2.set_date env j it props).1)).1).content
        = it.content := by
      have h1 := congrArg Stat.content hrm.1
      have h2 := congrArg Stat.content hsd.1
      simpa using h1.trans h2
    have hlr := lr_identity env j
      ((V2.remove_nodate_label env j ((V2.set_date env j it props).1)).1)
      (by rw [hcontent]; exact hnl)
    simp only [hlr, List.append_nil]
    refine ⟨hrm.1.trans hsd.1, ?_, ?_, ?_⟩
    · intro hq
      rw [List.append_eq_nil] at hq
      rw [hrm.2.2.1 hq.2, hsd.2.2.2.1 hq.1]
    · rw [hrm.2.1]
      rcases hsd.2.2.1 with h | h
      · exact Or.inl h
      · exact Or.inr ⟨props.delay.getD todayStr, h⟩
    · intro hnd
      apply hrm.2.2.2.1
      rw [hsd.2.1]
      exact hnd
  · rw [if_neg hdn]
    by_cases how : ow = true
    · rw [if_pos how]
      by_cases hdue : it.due = none
      · rw [if_pos hdue]
        have hadd := add_fields env j it
        have hcontent : ((V2.add_nodate_label env j it).1).content = it.content := by
          have := congrArg Stat.content hadd.1
          simpa using this
        have hlr := lr_identity env j ((V2.add_nodate_label env j it).1)
          (by rw [hcontent]; exact hnl)
        simp only [hlr, List.append_nil]
        refine ⟨hadd.1, ?_, Or.inl hadd.2.1, hadd.2.2.2.1⟩
        intro hq
        unfold V2.add_nodate_label at hq ⊢
        by_cases hm : env.nodate_label_id ∈ it.labels
        · rw [if_pos hm]
        · rw [if_neg hm] at hq
          exact absurd hq (by simp)
      · rw [if_neg hdue]
        have hlr := lr_identity env j it hnl
        simp only [hlr, List.append_nil]
        exact ⟨trivial, fun _ => trivial, Or.inl trivial, fun h => h⟩
    · rw [if_neg how]
      have hlr := lr_identity env j it hnl
      simp only [hlr, List.append_nil]
      exact ⟨trivial, fun _ => trivial, Or.inl trivial, fun h => h⟩

theorem activate_content (env : Env) (j : Nat) (it : Item) (props : V2.Props) :
    ((V2.activate_item env j it props).1).content = it.content := by
  show ((V2.remove_nodate_label env j ((V2.set_date env j it props).1)).1).content = it.content
  have h1 := congrArg Stat.content (rm_fields env j ((V2.set_date env j it props).1)).1
  have h2 := congrArg Stat.content (sd_fields env j it props).1
  simpa using h1.trans h2

theorem own_content (env : Env) (j : Nat) (it : Item) :
    ((V2.own_item env j it).1).content = it.content := by
  unfold V2.own_item
  by_cases hdue : it.due = none
  · rw [if_pos hdue]
    simpa using congrArg Stat.content (add_fields env j it).1
  · rw [if_neg hdue]

/-- Under the no-marker hypothesis the last-run rewrite is inert, so the
mutation step is exactly its activate/own branch. -/
theorem mut_step_split (env : Env) (j : Nat) (it : Item) (props : V2.Props)
    (dn ow : Bool) (hnl : startswith it.content V2.LAST_RUN_CONST = false) :
    V2.mut_step env j it props dn ow =
      if dn = true then V2.activate_item env j it props
      else if ow = true then V2.own_item env j it
      else (it, []) := by
  by_cases hdn : dn = true
  · rw [if_pos hdn]
    have hlr := lr_identity env j ((V2.activate_item env j it props).1)
      (by rw [activate_content env j it props]; exact hnl)
    simp only [V2.mut_step, if_pos hdn, hlr, List.append_nil]
  · rw [if_neg hdn]
    by_cases how : ow = true
    · rw [if_pos how]
      have hlr := lr_identity env j ((V2.own_item env j it).1)
        (by rw [own_content env j it]; exact hnl)
      simp only [V2.mut_step, if_neg hdn, if_pos how, hlr, List.append_nil]
    · rw [if_neg how]
      have hlr := lr_identity env j it hnl
      simp only [V2.mut_step, if_neg hdn, if_neg how, hlr, List.append_nil]

theorem activate_item_idem (env : Env) (j : Nat) (it : Item) (props : V2.Props)
    (hnd : it.labels.Nodup) (hnn : env.nodate_label_id ∉ env.next_label_ids) :
    V2.activate_item env j ((V2.activate_item env j it props).1) props =
      ((V2.activate_item env j it props).1, []) := by
  have ha1 : (V2.activate_item env j it props).1 =
      (V2.remove_nodate_label env j ((V2.set_date env j it props).1)).1 := rfl
  have hsd2 : V2.set_date env j ((V2.activate_item env j it props).1) props =
      ((V2.activate_item env j it props).1, []) := by
    by_cases hnc : nextCheck env it.labels = true
    · apply sd_skip_of_nextCheck
      rw [ha1, sd_skip_of_nextCheck env j it props hnc, rm_nextCheck env j _ hnn]
      exact hnc
    · apply sd_skip_of_due
      rw [ha1, (rm_fields env j ((V2.set_date env j it props).1)).2.1]
      exact sd_due_some env j it props (by rw [Bool.not_eq_true] at hnc; exact hnc)
  have hrm2 : V2.remove_nodate_label env j ((V2.activate_item env j it props).1) =
      ((V2.activate_item env j it props).1, []) := by
    apply (rm_fields env j _).2.2.2.2.2
    rw [ha1]
    apply (rm_fields env j _).2.2.2.2.1
    rw [(sd_fields env j it props).2.1]
    exact hnd
  rw [ha1] at hsd2 hrm2
  simp only [V2.activate_item, hsd2, hrm2, List.append_nil]

theorem own_item_idem (env : Env) (j : Nat) (it : Item) :
    V2.own_item env j ((V2.own_item env j it).1) = ((V2.own_item env j it).1, []) := by
  by_cases hdue : it.due = none
  · have ho1 : V2.own_item env j it = V2.add_nodate_label env j it := by
      unfold V2.own_item
      rw [if_pos hdue]
    rw [ho1]
    unfold V2.own_item
    rw [if_pos (by rw [(add_fields env j it).2.1]; exact hdue)]
    exact (add_fields env j _).2.2.2.2 (add_fields env j it).2.2.1
  · have ho1 : V2.own_item env j it = (it, []) := by
      unfold V2.own_item
      rw [if_neg hdue]
    rw [ho1]
    show V2.own_item env j it = (it, [])
    exact ho1

/-- Re-applying the per-node mutation step stages nothing, provided labels
are a set, the blocking label is not itself next-eligible, and the content
carries no last-run marker. -/
theorem mut_step_idem (env : Env) (j : Nat) (it : Item) (props : V2.Props)
    (dn ow : Bool) (hnl : startswith it.content V2.LAST_RUN_CONST = false)
    (hnd : it.labels.Nodup) (hnn : env.nodate_label_id ∉ env.next_label_ids) :
    V2.mut_step env j ((V2.mut_step env j it props dn ow).1) props dn ow =
      ((V2.mut_step env j it props dn ow).1, []) := by
  have hsplit := mut_step_split env j it props dn ow hnl
  by_cases hdn : dn = true
  · have e1 : V2.mut_step env j it props dn ow = V2.activate_item env j it props := by
      rw [hsplit, if_pos hdn]
    rw [e1]
    have hsplit2 := mut_step_split env j ((V2.activate_item env j it props).1) props dn ow
      (by rw [activate_content env j it props]; exact hnl)
    rw [hsplit2, if_pos hdn]
    exact activate_item_idem env j it props hnd hnn
  · by_cases how : ow = true
    · have e1 : V2.mut_step env j it props dn ow = V2.own_item env j it := by
        rw [hsplit, if_neg hdn, if_pos how]
      rw [e1]
      have hsplit2 := mut_step_split env j ((V2.own_item env j it).1) props dn ow
        (by rw [own_content env j it]; exact hnl)
      rw [hsplit2, if_neg hdn, if_pos how]
      exact own_item_idem env j it
    · have e1 : V2.mut_step env j it props dn ow = (it, []) := by
        rw [hsplit, if_neg hdn, if_neg how]
      rw [e1]
      have hsplit2 := mut_step_split env j it props dn ow hnl
      rw [show ((it, []) : Item × List Mut).1 = it from rfl, hsplit2, if_neg hdn, if_neg how]

/-- Lockstep relation between one run from `s` and one from a store `t`
agreeing with `s` on statics and on the planned positions: equal queues,
statics preserved, agreement maintained on the plan, positions off the plan
untouched, empty queues mean untouched stores, and label-set discipline is
preserved. -/
def SimOk (pl : List Nat) (s t : List Item) (r r2 : List Item × List Mut) : Prop :=
  r.2 = r2.2 ∧ statEq r.1 s ∧ statEq r2.1 t ∧
  (∀ k, k ∈ pl → r.1[k]? = r2.1[k]?) ∧
  (∀ k, k ∉ pl → r.1[k]? = s[k]? ∧ r2.1[k]? = t[k]?) ∧
  (r.2 = [] → r.1 = s) ∧ (r2.2 = [] → r2.1 = t) ∧
  (NodupLabels s → NodupLabels r.1) ∧ (NodupLabels t → NodupLabels r2.1)

def SimR (pl : List Nat) (s t : List Item) :
    Except PyErr (List Item × List Mut) → Except PyErr (List Item × List Mut) → Prop
  | .error _, .error _ => True
  | .ok r, .ok r2 => SimOk pl s t r r2
  | _, _ => False

theorem simR_error_left {pl : List Nat} {s t : List Item}
    {X Y : Except PyErr (List Item × List Mut)} (h : SimR pl s t X Y)
    {e : PyErr} (hX : X = .error e) : ∃ e2, Y = .error e2 := by
  subst hX
  cases Y with
  | error e2 => exact ⟨e2, rfl⟩
  | ok r2 => exact absurd h (by simp [SimR])

theorem simR_ok_left {pl : List Nat} {s t : List Item}
    {X Y : Except PyErr (List Item × List Mut)} (h : SimR pl s t X Y)
    {r : List Item × List Mut} (hX : X = .ok r) :
    ∃ r2, Y = .ok r2 ∧ SimOk pl s t r r2 := by
  subst hX
  cases Y with
  | error e2 => exact absurd h (by simp [SimR])
  | ok r2 => exact ⟨r2, rfl, h⟩

/-- One-step unfolding of the v2 walk with the children loop named. -/
theorem process_item_succ_eq (env : Env) (fuel : Nat) (s : List Item)
    (pp : V2.Props) (j : Nat) (first : Bool) :
    V2.process_item env (fuel + 1) s pp j first =
      (match s[j]? with
       | none => .ok (s, [])
       | some it =>
         match V2.is_due env it with
         | .error e => .error e
         | .ok _ =>
           match V2.process_children env fuel
               (V2.node_props env pp it.content first
                 (!(V2.get_subitems s (some it.id)).2.isEmpty)).1
               (s.set j
                 (V2.mut_step env j it
                   (V2.node_props env pp it.content first
                     (!(V2.get_subitems s (some it.id)).2.isEmpty)).1
                   (V2.node_props env pp it.content first
                     (!(V2.get_subitems s (some it.id)).2.isEmpty)).2.2
                   (V2.node_props env pp it.content first
                     (!(V2.get_subitems s (some it.id)).2.isEmpty)).2.1).1)
               (V2.get_subitems s (some it.id)).2 0 with
           | .error e => .error e
           | .ok (s2, q2) =>
             .ok (s2,
               (V2.mut_step env j it
                 (V2.node_props env pp it.content first
                   (!(V2.get_subitems s (some it.id)).2.isEmpty)).1
                 (V2.node_props env pp it.content first
                   (!(V2.get_subitems s (some it.id)).2.isEmpty)).2.2
                 (V2.node_props env pp it.content first
                   (!(V2.get_subitems s (some it.id)).2.isEmpty)).2.1).2 ++ q2)) := rfl

/-- The children loop, unfolded one step. -/
theorem process_children_cons_eq (env : Env) (fuel : Nat) (pp : V2.Props)
    (s : List Item) (j : Nat) (rest : List Nat) (i : Nat) :
    V2.process_children env fuel pp s (j :: rest) i =
      (match V2.process_item env fuel s pp j (i == 0) with
       | .error e => .error e
       | .ok (s1, q1) =>
         match V2.process_children env fuel pp s1 rest (i + 1) with
         | .error e => .error e
         | .ok (s2, q2) => .ok (s2, q1 ++ q2)) := rfl

/-- Replacing an item by one with duplicate-free labels preserves the
store-wide label discipline. -/
theorem nodupLabels_set {s : List Item} {j : Nat} {x : Item}
    (hs : NodupLabels s) (hx : x.labels.Nodup) : NodupLabels (s.set j x) := by
  intro it hmem
  rcases List.mem_or_eq_of_mem_set hmem with h | h
  · exact hs it h
  · rw [h]; exact hx

theorem statEq_symm {s t : List Item} (h : statEq s t) : statEq t s := Eq.symm h

theorem statEq_trans {s t u : List Item} (h1 : statEq s t) (h2 : statEq t u) :
    statEq s u := Eq.trans h1 h2

/-- Children-loop simulation: given the item-level lockstep property at the
same fuel, the loop preserves it. -/
theorem core_list_aux (env : Env) (fuel : Nat)
    (IH : ∀ (s t : List Item) (pp : V2.Props) (j : Nat) (first : Bool),
      NoLastRun s → statEq s t →
      (∀ k, k ∈ plan s fuel j → s[k]? = t[k]?) →
      SimR (plan s fuel j) s t (V2.process_item env fuel s pp j first)
        (V2.process_item env fuel t pp j first)) :
    ∀ (idxs : List Nat) (s t : List Item) (pp : V2.Props) (i : Nat),
      NoLastRun s → statEq s t →
      (∀ k, k ∈ planList s fuel idxs → s[k]? = t[k]?) →
      SimR (planList s fuel idxs) s t
        (V2.process_children env fuel pp s idxs i)
        (V2.process_children env fuel pp t idxs i) := by
  intro idxs
  induction idxs with
  | nil =>
    intro s t pp i hnl hst hag
    show SimOk (planList s fuel []) s t (s, []) (t, [])
    exact ⟨rfl, statEq_refl s, statEq_refl t,
      fun k hk => absurd hk (by simp [planList, planFold]),
      fun k _ => ⟨rfl, rfl⟩, fun _ => rfl, fun _ => rfl, fun h => h, fun h => h⟩
  | cons j rest ihl =>
    intro s t pp i hnl hst hag
    have hplan : planList s fuel (j :: rest) = plan s fuel j ++ planList s fuel rest := rfl
    have HI := IH s t pp j (i == 0) hnl hst
      (fun k hk => hag k (by rw [hplan]; exact List.mem_append_left _ hk))
    rw [process_children_cons_eq env fuel pp s j rest i,
        process_children_cons_eq env fuel pp t j rest i]
    cases hr1 : V2.process_item env fuel s pp j (i == 0) with
    | error e =>
      rcases simR_error_left HI hr1 with ⟨e2, hr2⟩
      simp only [hr1, hr2]
      exact trivial
    | ok r =>
      rcases simR_ok_left HI hr1 with ⟨r2, hr2, hok⟩
      obtain ⟨s1, q1⟩ := r
      obtain ⟨t1, q1x⟩ := r2
      have hq1 : q1 = q1x := hok.1
      have hs1 : statEq s1 s := hok.2.1
      have ht1 : statEq t1 t := hok.2.2.1
      have hinp : ∀ k, k ∈ plan s fuel j → s1[k]? = t1[k]? := hok.2.2.2.1
      have houtp : ∀ k, k ∉ plan s fuel j → s1[k]? = s[k]? ∧ t1[k]? = t[k]? :=
        hok.2.2.2.2.1
      have hemp1 : q1 = [] → s1 = s := hok.2.2.2.2.2.1
      have hemp2 : q1x = [] → t1 = t := hok.2.2.2.2.2.2.1
      have hnd1 : NodupLabels s → NodupLabels s1 := hok.2.2.2.2.2.2.2.1
      have hnd2 : NodupLabels t → NodupLabels t1 := hok.2.2.2.2.2.2.2.2
      have hs1t1 : statEq s1 t1 := statEq_trans hs1 (statEq_trans hst (statEq_symm ht1))
      have hnl1 : NoLastRun s1 := noLastRun_statEq (statEq_symm hs1) hnl
      have hrestplan : planList s1 fuel rest = planList s fuel rest :=
        planList_statEq hs1 fuel rest
      have hag1 : ∀ k, k ∈ planList s1 fuel rest → s1[k]? = t1[k]? := by
        intro k hk
        rw [hrestplan] at hk
        by_cases hkp : k ∈ plan s fuel j
        · exact hinp k hkp
        · have h1 := houtp k hkp
          rw [h1.1, h1.2]
          exact hag k (by rw [hplan]; exact List.mem_append_right _ hk)
      have HR := ihl s1 t1 pp (i + 1) hnl1 hs1t1 hag1
      rw [hrestplan] at HR
      cases hr3 : V2.process_children env fuel pp s1 rest (i + 1) with
      | error e =>
        rcases simR_error_left HR hr3 with ⟨e2, hr4⟩
        simp only [hr1, hr2, hr3, hr4]
        exact trivial
      | ok r3 =>
        rcases simR_ok_left HR hr3 with ⟨r4, hr4, hok2⟩
        obtain ⟨s2, q2⟩ := r3
        obtain ⟨t2, q2x⟩ := r4
        have hq2 : q2 = q2x := hok2.1
        have hs2 : statEq s2 s1 := hok2.2.1
        have ht2 : statEq t2 t1 := hok2.2.2.1
        have hinp2 : ∀ k, k ∈ planList s fuel rest → s2[k]? = t2[k]? := hok2.2.2.2.1
        have houtp2 : ∀ k, k ∉ planList s fuel rest →
            s2[k]? = s1[k]? ∧ t2[k]? = t1[k]? := hok2.2.2.2.2.1
        have hemp3 : q2 = [] → s2 = s1 := hok2.2.2.2.2.2.1
        have hemp4 : q2x = [] → t2 = t1 := hok2.2.2.2.2.2.2.1
        have hnd3 : NodupLabels s1 → NodupLabels s2 := hok2.2.2.2.2.2.2.2.1
        have hnd4 : NodupLabels t1 → NodupLabels t2 := hok2.2.2.2.2.2.2.2.2
        simp only [hr1, hr2, hr3, hr4]
        show SimOk (planList s fuel (j :: rest)) s t (s2, q1 ++ q2) (t2, q1x ++ q2x)
        refine ⟨?_, statEq_trans hs2 hs1, statEq_trans ht2 ht1, ?_, ?_, ?_, ?_,
          fun h => hnd3 (hnd1 h), fun h => hnd4 (hnd2 h)⟩
        · show q1 ++ q2 = q1x ++ q2x
          rw [hq1, hq2]
        · intro k hk
          show s2[k]? = t2[k]?
          rw [hplan] at hk
          by_cases hkr : k ∈ planList s fuel rest
          · exact hinp2 k hkr
          · have h2 := houtp2 k hkr
            rw [h2.1, h2.2]
            apply hinp k
            rcases List.mem_append.mp hk with h | h
            · exact h
            · exact absurd h hkr
        · intro k hk
          show s2[k]? = s[k]? ∧ t2[k]? = t[k]?
          rw [hplan] at hk
          have hkj : k ∉ plan s fuel j := fun h => hk (List.mem_append_left _ h)
          have hkr : k ∉ planList s fuel rest := fun h => hk (List.mem_append_right _ h)
          have h2 := houtp2 k hkr
          have h1 := houtp k hkj
          exact ⟨h2.1.trans h1.1, h2.2.trans h1.2⟩
        · intro hq
          have hq9 : q1 ++ q2 = [] := hq
          rw [List.append_eq_nil] at hq9
          show s2 = s
          rw [hemp3 hq9.2, hemp1 hq9.1]
        · intro hq
          have hq9 : q1x ++ q2x = [] := hq
          rw [List.append_eq_nil] at hq9
          show t2 = t
          rw [hemp4 hq9.2, hemp2 hq9.1]

/-- Item-level simulation: two stores agreeing on statics and on the visit
plan run the v2 walk in lockstep. -/
theorem core_item (env : Env) : ∀ (fuel : Nat) (s t : List Item)
    (pp : V2.Props) (j : Nat) (first : Bool), NoLastRun s → statEq s t →
    (∀ k, k ∈ plan s fuel j → s[k]? = t[k]?) →
    SimR (plan s fuel j) s t (V2.process_item env fuel s pp j first)
      (V2.process_item env fuel t pp j first) := by
  intro fuel
  induction fuel with
  | zero =>
    intro s t pp j first hnl hst hag
    show SimOk (plan s 0 j) s t (s, []) (t, [])
    exact ⟨rfl, statEq_refl s, statEq_refl t,
      fun k hk => absurd hk (by simp [plan]),
      fun k _ => ⟨rfl, rfl⟩, fun _ => rfl, fun _ => rfl, fun h => h, fun h => h⟩
  | succ fuel ih =>
    intro s t pp j first hnl hst hag
    cases hsj : s[j]? with
    | none =>
      have htj : t[j]? = none := (statEq_none_iff hst j).mp hsj
      have hpl : plan s (fuel + 1) j = [] := by simp only [plan, hsj]
      rw [process_item_succ_eq env fuel s pp j first,
          process_item_succ_eq env fuel t pp j first]
      simp only [hsj, htj]
      show SimOk (plan s (fuel + 1) j) s t (s, []) (t, [])
      exact ⟨rfl, statEq_refl s, statEq_refl t,
        fun k hk => absurd hk (by rw [hpl]; exact List.not_mem_nil k),
        fun k _ => ⟨rfl, rfl⟩, fun _ => rfl, fun _ => rfl, fun h => h, fun h => h⟩
    | some it =>
      have hjmem : j ∈ plan s (fuel + 1) j := by
        simp only [plan, hsj]
        exact List.mem_cons_self _ _
      have htj : t[j]? = some it := (hag j hjmem).symm.trans hsj
      have hsubs : V2.get_subitems t (some it.id) = V2.get_subitems s (some it.id) :=
        (get_subitems_statEq hst (some it.id)).symm
      have hit : startswith it.content V2.LAST_RUN_CONST = false :=
        hnl it (mem_of_getElem? hsj)
      cases hdu : V2.is_due env it with
      | error e =>
        rw [process_item_succ_eq env fuel s pp j first,
            process_item_succ_eq env fuel t pp j first]
        simp only [hsj, htj, hdu]
        exact trivial
      | ok b =>
        rw [process_item_succ_eq env fuel s pp j first,
            process_item_succ_eq env fuel t pp j first]
        simp only [hsj, htj, hdu, hsubs]
        have hplan : plan s (fuel + 1) j =
            j :: planList s fuel (V2.get_subitems s (some it.id)).2 := by
          simp only [plan, hsj]
          rfl
        generalize hNP : V2.node_props env pp it.content first
          (!(V2.get_subitems s (some it.id)).2.isEmpty) = np
        generalize hR1 : V2.mut_step env j it np.1 np.2.2 np.2.1 = r1
        generalize hSUBS : (V2.get_subitems s (some it.id)).2 = subs2
        rw [hSUBS] at hplan
        have hmf := mut_step_facts env j it np.1 np.2.2 np.2.1 hit
        rw [hR1] at hmf
        have hstat1 : stat r1.1 = stat it := hmf.1
        have hq0 : r1.2 = [] → r1.1 = it := hmf.2.1
        have hnd0 : it.labels.Nodup → (r1.1).labels.Nodup := hmf.2.2.2
        have hset_s : statEq (s.set j r1.1) s := statEq_set hsj hstat1
        have hset_t : statEq (t.set j r1.1) t := statEq_set htj hstat1
        have hst2 : statEq (s.set j r1.1) (t.set j r1.1) :=
          statEq_trans hset_s (statEq_trans hst (statEq_symm hset_t))
        have hnl2 : NoLastRun (s.set j r1.1) :=
          noLastRun_statEq (statEq_symm hset_s) hnl
        have hplan2 : planList (s.set j r1.1) fuel subs2 = planList s fuel subs2 :=
          planList_statEq hset_s fuel subs2
        have hag2 : ∀ k, k ∈ planList (s.set j r1.1) fuel subs2 →
            (s.set j r1.1)[k]? = (t.set j r1.1)[k]? := by
          intro k hk
          rw [hplan2] at hk
          by_cases hkj : k = j
          · subst hkj
            rw [getElem?_set_of_some _ hsj, getElem?_set_of_some _ htj]
          · rw [List.getElem?_set_ne (fun h => hkj h.symm),
                List.getElem?_set_ne (fun h => hkj h.symm)]
            apply hag k
            rw [hplan]
            exact List.mem_cons_of_mem _ hk
        have HC := core_list_aux env fuel ih subs2 (s.set j r1.1) (t.set j r1.1)
          np.1 0 hnl2 hst2 hag2
        rw [hplan2] at HC
        cases hch1 : V2.process_children env fuel np.1 (s.set j r1.1) subs2 0 with
        | error e =>
          rcases simR_error_left HC hch1 with ⟨e2, hch2⟩
          simp only [hch1, hch2]
          exact trivial
        | ok r =>
          rcases simR_ok_left HC hch1 with ⟨r2, hch2, hok⟩
          obtain ⟨s2, q2⟩ := r
          obtain ⟨t2, q2x⟩ := r2
          have hq2 : q2 = q2x := hok.1
          have hs2 : statEq s2 (s.set j r1.1) := hok.2.1
          have ht2 : statEq t2 (t.set j r1.1) := hok.2.2.1
          have hinp2 : ∀ k, k ∈ planList s fuel subs2 → s2[k]? = t2[k]? :=
            hok.2.2.2.1
          have houtp2 : ∀ k, k ∉ planList s fuel subs2 →
              s2[k]? = (s.set j r1.1)[k]? ∧ t2[k]? = (t.set j r1.1)[k]? :=
            hok.2.2.2.2.1
          have hemp3 : q2 = [] → s2 = s.set j r1.1 := hok.2.2.2.2.2.1
          have hemp4 : q2x = [] → t2 = t.set j r1.1 := hok.2.2.2.2.2.2.1
          have hnd3 : NodupLabels (s.set j r1.1) → NodupLabels s2 :=
            hok.2.2.2.2.2.2.2.1
          have hnd4 : NodupLabels (t.set j r1.1) → NodupLabels t2 :=
            hok.2.2.2.2.2.2.2.2
          simp only [hch1, hch2]
          rw [hplan]
          show SimOk (j :: planList s fuel subs2) s t
            (s2, r1.2 ++ q2) (t2, r1.2 ++ q2x)
          refine ⟨?_, statEq_trans hs2 hset_s, statEq_trans ht2 hset_t,
            ?_, ?_, ?_, ?_,
            fun h => hnd3 (nodupLabels_set h (hnd0 (h it (mem_of_getElem? hsj)))),
            fun h => hnd4 (nodupLabels_set h (hnd0 (h it (mem_of_getElem? htj))))⟩
          · show r1.2 ++ q2 = r1.2 ++ q2x
            rw [hq2]
          · intro k hk
            show s2[k]? = t2[k]?
            rcases List.mem_cons.mp hk with hkj | hkr
            · by_cases hkr2 : k ∈ planList s fuel subs2
              · exact hinp2 k hkr2
              · have h2 := houtp2 k hkr2
                rw [h2.1, h2.2, hkj,
                    getElem?_set_of_some _ hsj, getElem?_set_of_some _ htj]
            · exact hinp2 k hkr
          · intro k hk
            show s2[k]? = s[k]? ∧ t2[k]? = t[k]?
            have hkj : k ≠ j := fun h => hk (by rw [h]; exact List.mem_cons_self _ _)
            have hkr : k ∉ planList s fuel subs2 :=
              fun h => hk (List.mem_cons_of_mem _ h)
            have h2 := houtp2 k hkr
            constructor
            · rw [h2.1, List.getElem?_set_ne (fun h => hkj h.symm)]
            · rw [h2.2, List.getElem?_set_ne (fun h => hkj h.symm)]
          · intro hq
            have hq9 : r1.2 ++ q2 = [] := hq
            rw [List.append_eq_nil] at hq9
            show s2 = s
            rw [hemp3 hq9.2, hq0 hq9.1, set_getElem?_self hsj]
          · intro hq
            have hq9 : r1.2 ++ q2x = [] := hq
            rw [List.append_eq_nil] at hq9
            show t2 = t
            rw [hemp4 hq9.2, hq0 hq9.1, set_getElem?_self htj]

/-- v2 `is_due` reads only the due descriptor. -/
theorem is_due_due_congr (env : Env) {it it2 : Item} (h : it2.due = it.due) :
    V2.is_due env it2 = V2.is_due env it := by
  unfold V2.is_due V2.parse_due
  rw [h]

/-- On a due descriptor the store rendered from a staged string, `is_due`
cannot raise. -/
theorem is_due_ok_of_goodNorm (env : Env) (hg : GoodNorm env) {it : Item}
    {str : List Char} (h : it.due = some (env.normalize str)) :
    ∃ b, V2.is_due env it = .ok b := by
  unfold V2.is_due
  simp only [V2.parse_due, h]
  cases hd : strptimeDateTime (env.normalize str).date with
  | some dt => exact ⟨_, rfl⟩
  | none =>
    cases hd2 : strptimeDate (env.normalize str).date with
    | some dt => exact ⟨_, rfl⟩
    | none =>
      rcases hg str with h1 | h1
      · exact absurd hd h1
      · exact absurd hd2 h1

/-- Children-loop rerun: given the item-level rerun property at the same
fuel, rerunning the loop from its own final store stages nothing. -/
theorem rerun_list_aux (env : Env) (fuel : Nat)
    (IH : ∀ (s : List Item) (pp : V2.Props) (j : Nat) (first : Bool)
      (s1 : List Item) (q1 : List Mut),
      NoLastRun s → NodupLabels s → (plan s fuel j).Nodup →
      V2.process_item env fuel s pp j first = .ok (s1, q1) →
      V2.process_item env fuel s1 pp j first = .ok (s1, [])) :
    ∀ (idxs : List Nat) (s : List Item) (pp : V2.Props) (i : Nat)
      (s2 : List Item) (q : List Mut),
      NoLastRun s → NodupLabels s → (planList s fuel idxs).Nodup →
      V2.process_children env fuel pp s idxs i = .ok (s2, q) →
      V2.process_children env fuel pp s2 idxs i = .ok (s2, []) := by
  intro idxs
  induction idxs with
  | nil =>
    intro s pp i s2 q hnl hndl hpnd hrun
    have h0 : (Except.ok (s, ([] : List Mut)) : Except PyErr (List Item × List Mut))
        = .ok (s2, q) := hrun
    have hs : s = s2 := congrArg Prod.fst (Except.ok.inj h0)
    subst hs
    rfl
  | cons j rest ihl =>
    intro s pp i s2 q hnl hndl hpnd hrun
    have hplan : planList s fuel (j :: rest) =
        plan s fuel j ++ planList s fuel rest := rfl
    rw [hplan, List.nodup_append] at hpnd
    obtain ⟨hnd_j, hnd_rest, hdisj⟩ := hpnd
    rw [process_children_cons_eq env fuel pp s j rest i] at hrun
    cases hr1 : V2.process_item env fuel s pp j (i == 0) with
    | error e => exact absurd hrun (by simp [hr1])
    | ok r =>
      obtain ⟨s1, q1⟩ := r
      cases hr3 : V2.process_children env fuel pp s1 rest (i + 1) with
      | error e => exact absurd hrun (by simp [hr1, hr3])
      | ok r3 =>
        obtain ⟨s3, q3⟩ := r3
        have hrun2 : (Except.ok (s3, q1 ++ q3) : Except PyErr (List Item × List Mut))
            = .ok (s2, q) := by
          rw [← hrun]
          simp only [hr1, hr3]
        have hs3 : s3 = s2 := congrArg Prod.fst (Except.ok.inj hrun2)
        subst hs3
        have HSELF := core_item env fuel s s pp j (i == 0) hnl (statEq_refl s)
          (fun k _ => rfl)
        have HOK1 : SimOk (plan s fuel j) s s (s1, q1) (s1, q1) := by
          rw [hr1] at HSELF
          exact HSELF
        have hstat_s1 : statEq s1 s := HOK1.2.1
        have houtp1 : ∀ k, k ∉ plan s fuel j → s1[k]? = s[k]? :=
          fun k hk => (HOK1.2.2.2.2.1 k hk).1
        have hndl1 : NodupLabels s1 := HOK1.2.2.2.2.2.2.2.1 hndl
        have hnl1 : NoLastRun s1 := noLastRun_statEq (statEq_symm hstat_s1) hnl
        have hplan_rest1 : planList s1 fuel rest = planList s fuel rest :=
          planList_statEq hstat_s1 fuel rest
        have HSELF2 := core_list_aux env fuel (core_item env fuel) rest s1 s1 pp
          (i + 1) hnl1 (statEq_refl s1) (fun k _ => rfl)
        have HOK2 : SimOk (planList s1 fuel rest) s1 s1 (s3, q3) (s3, q3) := by
          rw [hr3] at HSELF2
          exact HSELF2
        have hstat_s3 : statEq s3 s1 := HOK2.2.1
        have houtp3 : ∀ k, k ∉ planList s fuel rest → s3[k]? = s1[k]? := by
          intro k hk
          exact (HOK2.2.2.2.2.1 k (by rw [hplan_rest1]; exact hk)).1
        have hnl3 : NoLastRun s3 := noLastRun_statEq (statEq_symm hstat_s3) hnl1
        have hpj1 : plan s1 fuel j = plan s fuel j := plan_statEq hstat_s1 fuel j
        have hrr1 : V2.process_item env fuel s1 pp j (i == 0) = .ok (s1, []) :=
          IH s pp j (i == 0) s1 q1 hnl hndl hnd_j hr1
        have hag13 : ∀ k, k ∈ plan s1 fuel j → s1[k]? = s3[k]? := by
          intro k hk
          rw [hpj1] at hk
          exact (houtp3 k (fun hmem => hdisj hk hmem)).symm
        have HT := core_item env fuel s1 s3 pp j (i == 0) hnl1
          (statEq_symm hstat_s3) hag13
        rcases simR_ok_left HT hrr1 with ⟨r2b, hr2b, hokT⟩
        obtain ⟨s4, q4⟩ := r2b
        have hq4 : ([] : List Mut) = q4 := hokT.1
        have hs4 : q4 = [] → s4 = s3 := hokT.2.2.2.2.2.2.1
        have hstep1 : V2.process_item env fuel s3 pp j (i == 0) = .ok (s3, []) := by
          rw [hr2b, hs4 hq4.symm, ← hq4]
        have hplnd_rest1 : (planList s1 fuel rest).Nodup := by
          rw [hplan_rest1]
          exact hnd_rest
        have hrr_rest : V2.process_children env fuel pp s3 rest (i + 1) =
            .ok (s3, []) := ihl s1 pp (i + 1) s3 q3 hnl1 hndl1 hplnd_rest1 hr3
        rw [process_children_cons_eq env fuel pp s3 j rest i]
        simp only [hstep1, hrr_rest, List.nil_append]

/-- Rerunning the v2 walk from its own final store stages nothing, provided
no content carries the last-run marker, label lists are duplicate-free, the
blocking label is not next-eligible, staged due strings render parseably,
and the visit plan has no repeats. -/
theorem rerun_item (env : Env) (hg : GoodNorm env)
    (hnn : env.nodate_label_id ∉ env.next_label_ids) :
    ∀ (fuel : Nat) (s : List Item) (pp : V2.Props) (j : Nat) (first : Bool)
      (s1 : List Item) (q1 : List Mut),
      NoLastRun s → NodupLabels s → (plan s fuel j).Nodup →
      V2.process_item env fuel s pp j first = .ok (s1, q1) →
      V2.process_item env fuel s1 pp j first = .ok (s1, []) := by
  intro fuel
  induction fuel with
  | zero =>
    intro s pp j first s1 q1 hnl hndl hpnd hrun
    have h0 : (Except.ok (s, ([] : List Mut)) : Except PyErr (List Item × List Mut))
        = .ok (s1, q1) := hrun
    have hs : s = s1 := congrArg Prod.fst (Except.ok.inj h0)
    subst hs
    rfl
  | succ fuel ih =>
    intro s pp j first s1 q1 hnl hndl hpnd hrun
    cases hsj : s[j]? with
    | none =>
      rw [process_item_succ_eq env fuel s pp j first] at hrun
      have hrun2 : (Except.ok (s, ([] : List Mut)) : Except PyErr (List Item × List Mut))
          = .ok (s1, q1) := by rw [← hrun]; simp only [hsj]
      have hs : s = s1 := congrArg Prod.fst (Except.ok.inj hrun2)
      subst hs
      rw [process_item_succ_eq env fuel s pp j first]
      simp only [hsj]
    | some it =>
      rw [process_item_succ_eq env fuel s pp j first] at hrun
      simp only [hsj] at hrun
      have hplan : plan s (fuel + 1) j =
          j :: planList s fuel (V2.get_subitems s (some it.id)).2 := by
        simp only [plan, hsj]
        rfl
      have hit : startswith it.content V2.LAST_RUN_CONST = false :=
        hnl it (mem_of_getElem? hsj)
      have hndit : it.labels.Nodup := hndl it (mem_of_getElem? hsj)
      cases hdu : V2.is_due env it with
      | error e => exact absurd hrun (by simp [hdu])
      | ok b =>
        obtain ⟨sub2, hSUBS⟩ : ∃ x, (V2.get_subitems s (some it.id)).2 = x := ⟨_, rfl⟩
        obtain ⟨np, hNP⟩ : ∃ x,
            V2.node_props env pp it.content first (!sub2.isEmpty) = x := ⟨_, rfl⟩
        obtain ⟨r1, hR1⟩ : ∃ x, V2.mut_step env j it np.1 np.2.2 np.2.1 = x := ⟨_, rfl⟩
        rw [hSUBS] at hplan hrun
        rw [hNP, hR1] at hrun
        simp only [hdu] at hrun
        have hmf := mut_step_facts env j it np.1 np.2.2 np.2.1 hit
        rw [hR1] at hmf
        have hstat1 : stat r1.1 = stat it := hmf.1
        have hdue1 : (r1.1).due = it.due ∨
            ∃ str, (r1.1).due = some (env.normalize str) := hmf.2.2.1
        have hnd0 : (r1.1).labels.Nodup := hmf.2.2.2 hndit
        have hset_s : statEq (s.set j r1.1) s := statEq_set hsj hstat1
        have hnl2 : NoLastRun (s.set j r1.1) :=
          noLastRun_statEq (statEq_symm hset_s) hnl
        have hndl2 : NodupLabels (s.set j r1.1) := nodupLabels_set hndl hnd0
        have hplan2 : planList (s.set j r1.1) fuel sub2 = planList s fuel sub2 := by
          rw [← hSUBS]
          rw [← hSUBS] at hplan
          exact planList_statEq hset_s fuel (V2.get_subitems s (some it.id)).2
        rw [hplan, List.nodup_cons] at hpnd
        obtain ⟨hjnot, hnd_sub⟩ := hpnd
        cases hch1 : V2.process_children env fuel np.1 (s.set j r1.1) sub2 0 with
        | error e => exact absurd hrun (by simp [hch1])
        | ok r =>
          obtain ⟨s2, q2⟩ := r
          have hrun2 : (Except.ok (s2, (r1.2 ++ q2 : List Mut)) :
              Except PyErr (List Item × List Mut)) = .ok (s1, q1) := by
            rw [← hrun]
            simp only [hch1]
          have hs1 : s2 = s1 := congrArg Prod.fst (Except.ok.inj hrun2)
          subst hs1
          have HSELF := core_list_aux env fuel (core_item env fuel) sub2
            (s.set j r1.1) (s.set j r1.1) np.1 0 hnl2 (statEq_refl _)
            (fun k _ => rfl)
          have HOK : SimOk (planList (s.set j r1.1) fuel sub2) (s.set j r1.1)
              (s.set j r1.1) (s2, q2) (s2, q2) := by
            rw [hch1] at HSELF
            exact HSELF
          have hstat_s2 : statEq s2 (s.set j r1.1) := HOK.2.1
          have hst_s2 : statEq s2 s := statEq_trans hstat_s2 hset_s
          have hs2j : s2[j]? = some r1.1 := by
            have h1 := (HOK.2.2.2.2.1 j (by rw [hplan2]; exact hjnot)).1
            rw [h1, getElem?_set_of_some _ hsj]
          have hid : (r1.1).id = it.id := congrArg Stat.id hstat1
          have hcontent : (r1.1).content = it.content := congrArg Stat.content hstat1
          have hsub_s2 : (V2.get_subitems s2 (some (r1.1).id)).2 = sub2 := by
            rw [hid, get_subitems_statEq hst_s2 (some it.id), hSUBS]
          obtain ⟨b2, hdu2⟩ : ∃ b2, V2.is_due env r1.1 = .ok b2 := by
            rcases hdue1 with hd | ⟨str, hd⟩
            · exact ⟨b, (is_due_due_congr env hd).trans hdu⟩
            · exact is_due_ok_of_goodNorm env hg hd
          have hmsi := mut_step_idem env j it np.1 np.2.2 np.2.1 hit hndit hnn
          rw [hR1] at hmsi
          have hrr := rerun_list_aux env fuel ih sub2 (s.set j r1.1) np.1 0 s2 q2
            hnl2 hndl2 (by rw [hplan2]; exact hnd_sub) hch1
          rw [process_item_succ_eq env fuel s2 pp j first]
          simp only [hs2j, hdu2, hsub_s2, hcontent, hNP, hmsi,
            set_getElem?_self hs2j, hrr, List.nil_append]

/-- A store holding only the v2 last-run timestamp item. -/
def storeLR : List Item :=
  [⟨1, none, 1, V2.LAST_RUN_CONST, false, none, none, []⟩]

/-- The content the last-run item carries after a run under `env1`. -/
def cLR : List Char := V2.LAST_RUN_CONST ++ [':', ' ', 'h', ' ', 'n']

/-- `storeLR` after one run. -/
def storeLR1 : List Item := [⟨1, none, 1, cLR, false, none, none, []⟩]

/-- C3 counterexample: a store containing the last-run timestamp item is
never a fixed point — the first run stages a content rewrite, and the second
run, starting from the first run's final store, stages the very same
mutation again, because v2 updates the timestamp on every run (lines
215–217). -/
theorem last_run_item_defeats_idempotence :
    V2.process_project env1 ['p'] storeLR = .ok (storeLR1, [Mut.contentSet 0 cLR]) ∧
    V2.process_project env1 ['p'] storeLR1 = .ok (storeLR1, [Mut.contentSet 0 cLR]) :=
  ⟨rfl, rfl⟩

/-- C3 (amended): running the v2 algorithm twice in succession on the same
store stages zero mutations on the second run — the first run's final store
is a fixed point — provided no item's content starts with the last-run
timestamp marker (such an item is rewritten on every run), every item's
label list is duplicate-free, the blocking label is not one of the
next-eligible labels, the store renders every staged due string to a
parseable date, and the walk's visit plan has no repeated position (the
parent graph is a forest). -/
theorem second_run_stages_no_mutations (env : Env) (pname : List Char)
    (s s1 : List Item) (q1 : List Mut)
    (hg : GoodNorm env) (hnn : env.nodate_label_id ∉ env.next_label_ids)
    (hnl : NoLastRun s) (hndl : NodupLabels s)
    (hpnd : (planList (V2.sortItems s) ((V2.sortItems s).length + 1)
      (V2.get_top_level_items (V2.sortItems s)).2).Nodup)
    (hrun : V2.process_project env pname s = .ok (s1, q1)) :
    V2.process_project env pname s1 = .ok (s1, []) := by
  simp only [V2.process_project] at hrun ⊢
  obtain ⟨pp, hPP⟩ : ∃ x, V2.set_parallel_or_serial env (pystrip pname) = x := ⟨_, rfl⟩
  rw [hPP] at hrun ⊢
  obtain ⟨sorted, hS⟩ : ∃ x, V2.sortItems s = x := ⟨_, rfl⟩
  rw [hS] at hrun hpnd
  have hperm : List.Perm sorted s := by
    rw [← hS]
    exact List.perm_insertionSort _ s
  have hnlS : NoLastRun sorted := fun it h => hnl it (hperm.subset h)
  have hndlS : NodupLabels sorted := fun it h => hndl it (hperm.subset h)
  haveI : IsTotal Item (fun a b : Item => a.child_order ≤ b.child_order) :=
    ⟨fun a b => Nat.le_total _ _⟩
  haveI : IsTrans Item (fun a b : Item => a.child_order ≤ b.child_order) :=
    ⟨fun a b c h1 h2 => Nat.le_trans h1 h2⟩
  have hsortS : List.Sorted (fun a b : Item => a.child_order ≤ b.child_order) sorted := by
    rw [← hS]
    exact List.sorted_insertionSort (fun a b : Item => a.child_order ≤ b.child_order) s
  have HSELF := core_list_aux env (sorted.length + 1)
    (core_item env (sorted.length + 1)) (V2.get_top_level_items sorted).2
    sorted sorted pp 0 hnlS (statEq_refl sorted) (fun k _ => rfl)
  have HOK : SimOk (planList sorted (sorted.length + 1)
      (V2.get_top_level_items sorted).2) sorted sorted (s1, q1) (s1, q1) := by
    rw [hrun] at HSELF
    exact HSELF
  have hstatEq : statEq s1 sorted := HOK.2.1
  have hpair : List.Pairwise (fun a b : Stat => a.child_order ≤ b.child_order)
      (s1.map stat) := by
    have h2 : List.Pairwise (fun a b : Stat => a.child_order ≤ b.child_order)
        (sorted.map stat) := List.pairwise_map.mpr hsortS
    rw [show s1.map stat = sorted.map stat from hstatEq]
    exact h2
  have hs1sort : List.Sorted (fun a b : Item => a.child_order ≤ b.child_order) s1 :=
    List.Pairwise.of_map stat (fun a b h => h) hpair
  have heqsort : V2.sortItems s1 = s1 := List.Sorted.insertionSort_eq hs1sort
  rw [heqsort]
  have hlen : s1.length = sorted.length := statEq_length hstatEq
  have htop : V2.get_top_level_items s1 = V2.get_top_level_items sorted := by
    unfold V2.get_top_level_items
    exact get_subitems_statEq hstatEq none
  rw [hlen, htop]
  exact rerun_list_aux env (sorted.length + 1)
    (rerun_item env hg hnn (sorted.length + 1))
    (V2.get_top_level_items sorted).2 sorted pp 0 s1 q1 hnlS hndlS hpnd hrun

/-- A one-item store already at a fixed point. -/
def storeA : List Item := [⟨1, none, 1, ['a'], false, none, none, []⟩]

/-- Witness for the amended C3 theorem at a concrete store: the run from
`storeA` stages nothing, and the theorem applies to it. -/
theorem second_run_stages_no_mutations_witness :
    V2.process_project env1 ['p'] storeA = .ok (storeA, []) :=
  second_run_stages_no_mutations env1 ['p'] storeA storeA []
    (fun _ => Or.inr (by
      show strptimeDate ['2','0','2','0','-','0','1','-','0','1'] ≠ none
      decide))
    (by decide)
    (by intro it h; simp only [storeA, List.mem_singleton] at h; subst h; rfl)
    (by intro it h; simp only [storeA, List.mem_singleton] at h; subst h
        exact List.nodup_nil)
    (by decide) rfl

end TodoistUpdater